import Mathlib

/-!
# Cryptopals set 1: single-byte and repeating-key XOR analysis

A shallow embedding of `cpp/set1/xorCipher.cpp`, `cpp/set1/4.cpp`,
`cpp/set1/5.cpp` and `cpp/set1/6.cpp` (with the score table of `set1/3.cpp`),
followed by the properties established about them.

Conventions of the embedding:
* a `uint8_t` is a `Byte` (`Fin 256`); a buffer `(uint8_t*, len)` is the list of
  its `len` bytes;
* `uint64_t` scores and `int` distances are natural numbers: a score grows by
  at most 14000 per byte and a distance by at most 8 per byte, far below the
  width of the accumulators for the buffers these programs hold in memory;
* the `uint8_t` loop counter of `findBestScoringKey` is incremented modulo
  `2 ^ 8`, since the loop relies on the wrap-around to stop;
* a read outside the buffer makes the result `none`; in `main` of challenge 6
  the buffer that `findKeyLength` receives is the whole array `decoded` of
  65536 bytes, of which the first `n` hold the decoded input;
* `while` loops and the wrapping `for` loop carry a fuel argument and return
  `none` when it runs out; the lemmas show that the fuel given suffices.
-/

namespace Cryptopals

/-- An 8-bit value (`uint8_t`). -/
abbrev Byte := Fin 256

/-- The operator `^` on two `uint8_t` operands. -/
def bxor (a b : Byte) : Byte :=
  ⟨a.val ^^^ b.val, Nat.xor_lt_two_pow (n := 8) a.isLt b.isLt⟩

/-- The increment `k++` of a `uint8_t`, modulo `2 ^ 8`. -/
def incr (k : Byte) : Byte :=
  ⟨(k.val + 1) % 2 ^ 8, Nat.mod_lt _ (by decide)⟩

/-- The table `CHAR_SCORES[256]` of `set1/3.cpp`. -/
def CHAR_SCORES : List Nat := [
      0,     0,     0,     0,     0,     0,     0,     0,     0,     0,     0,     0,     0,     0,     0,     0,
      0,     0,     0,     0,     0,     0,     0,     0,     0,     0,     0,     0,     0,     0,     0,     0,
  14000,     2,   285,     0,    52,     2,     7,   204,    53,    54,    21,     0,   985,   252,   946,     8,
    546,   461,   333,   188,   193,   374,   154,   120,   183,   282,    54,    37,     0,     0,     0,    12,
      0,   281,   169,   229,   130,   138,   101,    93,   124,   223,    79,    47,   107,   259,   205,   106,
    144,    12,   146,   305,   325,    57,    31,   107,     8,    94,     6,     0,     0,     0,     0,     0,
      0,  5264,   866,  1960,  2370,  7742,  1297,  1207,  2956,  4527,    66,   461,  2553,  1467,  4536,  4729,
   1256,    54,  4138,  4186,  5508,  1613,   653,  1016,   124,  1062,    66,     0,     0,     0,     0,     0,
      0,     0,     0,     0,     0,     0,     0,     0,     0,     0,     0,     0,     0,     0,     0,     0,
      0,     0,     0,     0,     0,     0,     0,     0,     0,     0,     0,     0,     0,     0,     0,     0,
      0,     0,     0,     0,     0,     0,     0,     0,     0,     0,     0,     0,     0,     0,     0,     0,
      0,     0,     0,     0,     0,     0,     0,     0,     0,     0,     0,     0,     0,     0,     0,     0,
      0,     0,     0,     0,     0,     0,     0,     0,     0,     0,     0,     0,     0,     0,     0,     0,
      0,     0,     0,     0,     0,     0,     0,     0,     0,     0,     0,     0,     0,     0,     0,     0,
      0,     0,     0,     0,     0,     0,     0,     0,     0,     0,     0,     0,     0,     0,     0,     0,
      0,     0,     0,     0,     0,     0,     0,     0,     0,     0,     0,     0,     0,     0,     0,     0
]

/-- The table lookup `CHAR_SCORES[x]` for a byte `x`. -/
def charScore (x : Byte) : Nat :=
  CHAR_SCORES.getD x.val 0

/-- The bytes `buffer[i] ^ key`, `i < len`, that `printResults` prints. -/
def printResults (buffer : List Byte) (key : Byte) : List Byte :=
  buffer.map (fun b => bxor b key)

/-- The inner loop of `findBestScoringKey`:
`score = 0; for (i = 0; i < len; i++) score += CHAR_SCORES[buffer[i] ^ k];`. -/
def scoreLoop (buffer : List Byte) (k : Byte) : Nat :=
  buffer.foldl (fun score b => score + charScore (bxor b k)) 0

/-- The loop `for (uint8_t k = 1; k != 0; k++)` of `findBestScoringKey`, entered
with the counter at `k` and the running `maxScore` and `bestKey`; the result
is the pair `(bestKey, maxScore)` at loop exit. -/
def keyLoop (buffer : List Byte) : Nat → Byte → Nat → Byte → Option (Byte × Nat)
  | 0, _, _, _ => none
  | fuel + 1, k, maxScore, bestKey =>
    if k = 0 then some (bestKey, maxScore)
    else
      let score := scoreLoop buffer k
      if score > maxScore then keyLoop buffer fuel (incr k) score k
      else keyLoop buffer fuel (incr k) maxScore bestKey

/-- The function `findBestScoringKey(buffer, len, maxScore)`: the returned key
paired with the value of the reference parameter `maxScore` on return. -/
def findBestScoringKey (buffer : List Byte) (maxScore : Nat) : Option (Byte × Nat) :=
  keyLoop buffer 256 1 maxScore 0

/-- The sum of the table weights of the bytes of a buffer (the frequency score
of the specification). -/
def score (buffer : List Byte) : Nat :=
  (buffer.map charScore).sum

/-- The candidates the loop still has to try when its counter is `k`: the
counter itself, if non-zero, and every larger byte. -/
def Pending (k j : Byte) : Prop := k ≠ 0 ∧ k.val ≤ j.val

/-- The outcome of the candidate loop started at counter `k` with running
maximum `m` and running key `bk`: either nothing pending beats `m` and the
state is returned unchanged, or the returned key is the first pending
candidate whose score is the largest pending score, which exceeds `m`. -/
def LoopResult (buffer : List Byte) (k : Byte) (m : Nat) (bk : Byte) (r : Byte × Nat) : Prop :=
  (∀ j, Pending k j → scoreLoop buffer j ≤ r.2) ∧
  ((r = (bk, m) ∧ ∀ j, Pending k j → scoreLoop buffer j ≤ m) ∨
   (Pending k r.1 ∧ scoreLoop buffer r.1 = r.2 ∧ m < r.2 ∧
     ∀ j, Pending k j → j.val < r.1.val → scoreLoop buffer j < r.2))

/-! ### Challenge 5: `cpp/set1/5.cpp` -/

/-- The array `const char INPUT[75]`: the 74 characters of the string literal
and the terminating NUL. -/
def INPUT : List Byte := [
  0x42, 0x75, 0x72, 0x6e, 0x69, 0x6e, 0x67, 0x20, 0x27, 0x65, 0x6d, 0x2c, 0x20, 0x69, 0x66, 0x20,
  0x79, 0x6f, 0x75, 0x20, 0x61, 0x69, 0x6e, 0x27, 0x74, 0x20, 0x71, 0x75, 0x69, 0x63, 0x6b, 0x20,
  0x61, 0x6e, 0x64, 0x20, 0x6e, 0x69, 0x6d, 0x62, 0x6c, 0x65, 0x0a, 0x49, 0x20, 0x67, 0x6f, 0x20,
  0x63, 0x72, 0x61, 0x7a, 0x79, 0x20, 0x77, 0x68, 0x65, 0x6e, 0x20, 0x49, 0x20, 0x68, 0x65, 0x61,
  0x72, 0x20, 0x61, 0x20, 0x63, 0x79, 0x6d, 0x62, 0x61, 0x6c,
  0x00
]

/-- The array `const char KEY[4] = "ICE"`, terminating NUL included. -/
def KEY : List Byte := [0x49, 0x43, 0x45, 0x00]

/-- The C library function `strlen`: the number of bytes before the first NUL. -/
def strlen (s : List Byte) : Nat :=
  (s.takeWhile (fun c => c ≠ 0)).length

/-- The byte-wise XOR of the first `n` bytes of `input` with the key bytes that
challenge 5 selects: byte `i` is `input[i] ^ key[i % (strlen(key) + 1)]` as
bytes. These are the low bytes of what the loop of `main` emits; `main5`
takes them at `n = strlen(INPUT)`, and `main5Loop` below is the loop itself. -/
def xorWithKey (input key : List Byte) (n : Nat) : List Byte :=
  (List.range n).map (fun i =>
    bxor (input.getD i 0) (key.getD (i % (strlen key + 1)) 0))

/-- The bytes that `main` of challenge 5 prints in hexadecimal. -/
def main5 : List Byte :=
  xorWithKey INPUT KEY (strlen INPUT)

/-- The value of a `char` holding the byte `x` after promotion to `int`, as a
32-bit two's-complement pattern: `char` is signed, so the bytes from 0x80 on
are negative and are extended with one bits. -/
def charToInt (x : Byte) : Nat :=
  if x.val < 2 ^ 7 then x.val else x.val + (2 ^ 32 - 2 ^ 8)

/-- The conversion of an `int` pattern to `char`: its low 8 bits. -/
def intToChar (v : Nat) : Byte :=
  ⟨v % 2 ^ 8, Nat.mod_lt _ (by decide)⟩

/-- The loop of `main` in challenge 5 with the char arrays `input` and `key` in
place of `INPUT` and `KEY`: for `i < strlen(input)` the value
`input[i] ^ key[i % (strlen(key) + 1)]`, as the `unsigned int` that
`printf("%02x", ...)` prints. -/
def main5Loop (input key : List Byte) : List Nat :=
  (List.range (strlen input)).map (fun i =>
    charToInt (input.getD i 0) ^^^ charToInt (key.getD (i % (strlen key + 1)) 0))

/-- The char array that holds the values `out` converted to `char`, followed by
the terminating NUL. -/
def toCharArray (out : List Nat) : List Byte :=
  out.map intToChar ++ [0]

/-! ### Challenge 6: `cpp/set1/6.cpp` -/

/-- The loop `while (x != 0) { x = x & (x-1); ed++; }` of `editDistance`; the
value `x & (x-1)` is at most `x`, so storing it back into the `uint8_t`
loses nothing. -/
def bitLoop : Nat → Nat → Nat → Option Nat
  | 0, _, _ => none
  | fuel + 1, x, ed =>
    if x = 0 then some ed else bitLoop fuel (x &&& (x - 1)) (ed + 1)

/-- The loop `for (int i = pos; i < pos + len; i++)` of `editDistance` with `n`
iterations left, the index at `i` and the running count `ed`. -/
def editLoop (buffer : List Byte) (len : Nat) : Nat → Nat → Nat → Option Nat
  | 0, _, ed => some ed
  | n + 1, i, ed =>
    match buffer[i]?, buffer[len + i]? with
    | some a, some b =>
      match bitLoop 256 (bxor a b).val ed with
      | some ed2 => editLoop buffer len n (i + 1) ed2
      | none => none
    | _, _ => none

/-- The function `editDistance(buffer, pos, len)`, for `pos`, `len` ≥ 0. -/
def editDistance (buffer : List Byte) (pos len : Nat) : Option Nat :=
  editLoop buffer len len pos 0

/-- The number of set bits of a byte. -/
def popcount (x : Byte) : Nat :=
  ((List.range 8).map (fun i => x.val / 2 ^ i % 2)).sum

/-- The total popcount of the byte-wise XOR of the blocks `[pos, pos+len)` and
`[pos+len, pos+2*len)` of a buffer. -/
def hammingDistance (buffer : List Byte) (pos len : Nat) : Nat :=
  ((List.range len).map (fun j =>
    popcount (bxor (buffer.getD (pos + j) 0) (buffer.getD (pos + len + j) 0)))).sum

/-- The integer nearest to `q`, ties going to the even one. -/
def roundHalfEven (q : ℚ) : ℤ :=
  if q - ⌊q⌋ < 1 / 2 then ⌊q⌋
  else if 1 / 2 < q - ⌊q⌋ then ⌊q⌋ + 1
  else if ⌊q⌋ % 2 = 0 then ⌊q⌋ else ⌊q⌋ + 1

/-- The value of type `float` (IEEE 754 binary32: 24 significant bits, least
exponent -126, round to nearest, ties to even) that a conversion or an
arithmetic operation with exact result `q` produces, for `|q| < 2 ^ 128`. -/
def f32 (q : ℚ) : ℚ :=
  if q = 0 then 0
  else (roundHalfEven (q * 2 ^ (23 - max (Int.log 2 |q|) (-126))) : ℚ)
    * 2 ^ (max (Int.log 2 |q|) (-126) - 23)

/-- The macro `HAMMING_TRIALS`. -/
def HAMMING_TRIALS : Nat := 8

/-- The macro `MIN_KEYSIZE`. -/
def MIN_KEYSIZE : Nat := 2

/-- The macro `MAX_KEYSIZE`. -/
def MAX_KEYSIZE : Nat := 40

/-- The loop `for (int i = 0; i < HAMMING_TRIALS; i++) sum += editDistance(buffer, 2*i*len, len);`
of `averageEditDistance` with `n` iterations left. -/
def trialLoop (buffer : List Byte) (len : Nat) : Nat → Nat → Nat → Option Nat
  | 0, _, sum => some sum
  | n + 1, i, sum =>
    match editDistance buffer (2 * i * len) len with
    | some ed => trialLoop buffer len n (i + 1) (sum + ed)
    | none => none

/-- The function `averageEditDistance(buffer, len)`. -/
def averageEditDistance (buffer : List Byte) (len : Nat) : Option Nat :=
  match trialLoop buffer len HAMMING_TRIALS 0 0 with
  | some sum => some (sum / HAMMING_TRIALS)
  | none => none

/-- The `float` value `(float) avg / keyLength`: both operands are converted to
`float` and the quotient is rounded to `float`. -/
def normED (avg keyLength : Nat) : ℚ :=
  f32 (f32 avg / f32 keyLength)

/-- The loop `for (int keyLength = MIN_KEYSIZE; keyLength < MAX_KEYSIZE; keyLength++)`
of `findKeyLength` with `n` iterations left, the running `minNormED` and
`guessedKeyLength`. -/
def keyLengthLoop (buffer : List Byte) : Nat → Nat → ℚ → Nat → Option Nat
  | 0, _, _, guessedKeyLength => some guessedKeyLength
  | n + 1, keyLength, minNormED, guessedKeyLength =>
    match averageEditDistance buffer keyLength with
    | some avg =>
      if normED avg keyLength < minNormED then
        keyLengthLoop buffer n (keyLength + 1) (normED avg keyLength) keyLength
      else keyLengthLoop buffer n (keyLength + 1) minNormED guessedKeyLength
    | none => none

/-- The function `findKeyLength(buffer)`. -/
def findKeyLength (buffer : List Byte) : Option Nat :=
  keyLengthLoop buffer (MAX_KEYSIZE - MIN_KEYSIZE) MIN_KEYSIZE (f32 999999) 0

/-- The average over the 8 trials, rounded down, of the Hamming distances of
the block pairs `[2tL, 2tL + L)`, `[2tL + L, 2tL + 2L)`. -/
def averageDistance (buffer : List Byte) (L : Nat) : Nat :=
  ((List.range 8).map (fun t => hammingDistance buffer (2 * t * L) L)).sum / 8

/-- The normalised distance `N(L)` of the specification, as an exact rational. -/
def normalisedDistance (buffer : List Byte) (L : Nat) : ℚ :=
  (averageDistance buffer L : ℚ) / (L : ℚ)

/-- The loop `for (int j = 0; j < blockSize; j++) block[j] = decoded[keyLength * j + i];`
of `main` in challenge 6: the first `blockSize` bytes of `block`. -/
def fillBlock (decoded : List Byte) (keyLength i : Nat) : Nat → Option (List Byte)
  | 0 => some []
  | j + 1 =>
    match fillBlock decoded keyLength i j, decoded[keyLength * j + i]? with
    | some block, some x => some (block ++ [x])
    | _, _ => none

/-- The buffer `(block, blockSize)` that `main` of challenge 6 passes to
`findBestScoringKey` for column `i`, with `blockSize = n / keyLength`, where
`n` is the number of decoded bytes; there is no result when `keyLength` is 0
(division by zero). -/
def column (decoded : List Byte) (keyLength i : Nat) : Option (List Byte) :=
  if keyLength = 0 then none
  else fillBlock decoded keyLength i (decoded.length / keyLength)

/-- Column `i` as the specification describes it: the bytes at the positions
below `n` that are congruent to `i` modulo `k`, in order. -/
def residueColumn (decoded : List Byte) (k i : Nat) : List Byte :=
  ((List.range decoded.length).filter (fun p => p % k = i)).map (fun p => decoded.getD p 0)

/-- The loop of `findBestScoringKey` instrumented with the list `tried` of the
counter values for which the loop body has run. -/
def keyLoopTrace (buffer : List Byte) :
    Nat → Byte → Nat → Byte → List Byte → Option (Byte × Nat × List Byte)
  | 0, _, _, _, _ => none
  | fuel + 1, k, maxScore, bestKey, tried =>
    if k = 0 then some (bestKey, maxScore, tried)
    else
      let score := scoreLoop buffer k
      if score > maxScore then keyLoopTrace buffer fuel (incr k) score k (tried ++ [k])
      else keyLoopTrace buffer fuel (incr k) maxScore bestKey (tried ++ [k])

/-- The ciphertext of challenge 3. -/
def CIPHERTEXT3 : List Byte := [
  0x1b, 0x37, 0x37, 0x33, 0x31, 0x36, 0x3f, 0x78, 0x15, 0x1b, 0x7f, 0x2b, 0x78, 0x34, 0x31, 0x33,
  0x3d, 0x78, 0x39, 0x78, 0x28, 0x37, 0x2d, 0x36, 0x3c, 0x78, 0x37, 0x3e, 0x78, 0x3a, 0x39, 0x3b,
  0x37, 0x36
]

/-- The sentence `Cooking MC's like a pound of bacon`. -/
def SENTENCE3 : List Byte := [
  0x43, 0x6f, 0x6f, 0x6b, 0x69, 0x6e, 0x67, 0x20, 0x4d, 0x43, 0x27, 0x73, 0x20, 0x6c, 0x69, 0x6b,
  0x65, 0x20, 0x61, 0x20, 0x70, 0x6f, 0x75, 0x6e, 0x64, 0x20, 0x6f, 0x66, 0x20, 0x62, 0x61, 0x63,
  0x6f, 0x6e
]

/-- The buffer indices that `editDistance(buffer, pos, len)` reads, in order:
`buffer[i]` and `buffer[len+i]` for `i` from `pos` to `pos + len - 1`. -/
def editDistanceReads (pos len : Nat) : List Nat :=
  (List.range len).flatMap (fun j => [pos + j, len + (pos + j)])

/-- The buffer indices that `averageEditDistance(buffer, len)` reads: those of
the calls `editDistance(buffer, 2*i*len, len)` for `i < HAMMING_TRIALS`. -/
def averageEditDistanceReads (len : Nat) : List Nat :=
  (List.range HAMMING_TRIALS).flatMap (fun i => editDistanceReads (2 * i * len) len)

/-- The buffer indices that `findKeyLength(buffer)` reads: those of the calls
`averageEditDistance(buffer, keyLength)` for `keyLength` from `MIN_KEYSIZE` to
`MAX_KEYSIZE - 1`. -/
def findKeyLengthReads : List Nat :=
  (List.range (MAX_KEYSIZE - MIN_KEYSIZE)).flatMap
    (fun n => averageEditDistanceReads (MIN_KEYSIZE + n))

/-- Repeating-key XOR as the specification defines it: byte `i` of the
plaintext is XOR-ed with `key[i mod |key|]`. -/
def repeatingKeyXor (plaintext key : List Byte) : List Byte :=
  (List.range plaintext.length).map (fun i =>
    bxor (plaintext.getD i 0) (key.getD (i % key.length) 0))

/-- The loop `for (int i = 0; i < keyLength; i++)` of `main` in challenge 6
after `i` iterations: the string `key`. Each iteration fills `block` with
column `i`, sets `maxScore = 0` and appends the result of
`findBestScoringKey(block, blockSize, maxScore)`. -/
def keyBytes (decoded : List Byte) (keyLength : Nat) : Nat → Option (List Byte)
  | 0 => some []
  | i + 1 =>
    match keyBytes decoded keyLength i, column decoded keyLength i with
    | some key, some block =>
      match findBestScoringKey block 0 with
      | some (k, _) => some (key ++ [k])
      | none => none
    | _, _ => none

/-- The part of `main` in challenge 6 after the call of `findKeyLength`, on the
`n` decoded bytes: `blockSize = n / keyLength` (no result for `keyLength = 0`)
and the loop over the columns; the result is the string `key`. -/
def recoverKey (decoded : List Byte) (keyLength : Nat) : Option (List Byte) :=
  if keyLength = 0 then none else keyBytes decoded keyLength keyLength

/-- The function `main` of challenge 6 on the array `decoded`, whose first `n`
bytes are the decoded input: `findKeyLength` receives the array, the columns
are taken from its first `n` bytes. -/
def main6 (decoded : List Byte) (n : Nat) : Option (List Byte) :=
  match findKeyLength decoded with
  | some keyLength => recoverKey (decoded.take n) keyLength
  | none => none

/-- The loop of `main` in challenge 4 over the decoded lines, with the variable
`maxScore` carried from call to call: the keys that the calls of
`findBestScoringKey` return, in order, and the final `maxScore`. -/
def main4Loop : List (List Byte) → Nat → Option (List Byte × Nat)
  | [], maxScore => some ([], maxScore)
  | decoded :: rest, maxScore =>
    match findBestScoringKey decoded maxScore with
    | some (k, m) =>
      match main4Loop rest m with
      | some (keys, final) => some (k :: keys, final)
      | none => none
    | none => none

/-- The function `main` of challenge 4 on the list of decoded lines:
`maxScore` starts at 0. -/
def main4 (lines : List (List Byte)) : Option (List Byte × Nat) :=
  main4Loop lines 0

/-- The best candidate score of a buffer: the maximum of the candidate score
over the keys 1..255. -/
def bestScore (buffer : List Byte) : Nat :=
  (Finset.univ.filter (fun k : Byte => k ≠ 0)).sup (scoreLoop buffer)

/-- The largest of `floor` and the best scores of the buffers of a list. -/
def runningMax (floor : Nat) (buffers : List (List Byte)) : Nat :=
  (buffers.map bestScore).foldl max floor

end Cryptopals

namespace Cryptopals

set_option maxRecDepth 100000

/-! ## The single-byte key breaker -/

theorem CHAR_SCORES_length : CHAR_SCORES.length = 256 := by
  decide

theorem incr_val_of_lt (k : Byte) (h : k.val < 255) : (incr k).val = k.val + 1 := by
  show (k.val + 1) % 2 ^ 8 = k.val + 1
  exact Nat.mod_eq_of_lt (by norm_num; omega)

theorem incr_eq_zero_iff (k : Byte) : incr k = 0 ↔ k.val = 255 := by
  have hk := k.isLt
  constructor
  · intro h
    have h0 : (incr k).val = 0 := by rw [h]; rfl
    have h1 : (k.val + 1) % 2 ^ 8 = 0 := h0
    norm_num at h1
    omega
  · intro h
    apply Fin.ext
    show (k.val + 1) % 2 ^ 8 = 0
    rw [h]
    rfl

theorem pending_split {k j : Byte} (h : Pending k j) : j = k ∨ Pending (incr k) j := by
  obtain ⟨hk, hle⟩ := h
  have hj := j.isLt
  by_cases hjk : j.val = k.val
  · exact Or.inl (Fin.ext hjk)
  · right
    have hlt : k.val < 255 := by omega
    refine ⟨fun h0 => ?_, ?_⟩
    · have := (incr_eq_zero_iff k).1 h0
      omega
    · rw [incr_val_of_lt k hlt]
      omega

theorem pending_incr {k j : Byte} (hk : k ≠ 0) (h : Pending (incr k) j) :
    Pending k j ∧ k.val < j.val := by
  obtain ⟨h0, hle⟩ := h
  have hlt : k.val < 255 := by
    have hk2 := k.isLt
    have : k.val ≠ 255 := fun h => h0 ((incr_eq_zero_iff k).2 h)
    omega
  rw [incr_val_of_lt k hlt] at hle
  exact ⟨⟨hk, by omega⟩, by omega⟩

theorem keyLoop_spec (buffer : List Byte) :
    ∀ (fuel : Nat) (k : Byte) (m : Nat) (bk : Byte),
      (if k = 0 then 0 else 256 - k.val) < fuel →
      ∃ r, keyLoop buffer fuel k m bk = some r ∧ LoopResult buffer k m bk r := by
  intro fuel
  induction fuel with
  | zero => intro k m bk h; omega
  | succ fuel ih =>
    intro k m bk hfuel
    by_cases hk : k = 0
    · refine ⟨(bk, m), by simp [keyLoop, hk], ?_, Or.inl ⟨rfl, ?_⟩⟩ <;>
        exact fun j hj => absurd hk hj.1
    · have hkv : k.val ≠ 0 := fun h => hk (Fin.ext h)
      have hklt := k.isLt
      have hfuel2 : (if incr k = 0 then 0 else 256 - (incr k).val) < fuel := by
        simp only [hk, if_false] at hfuel
        by_cases h0 : incr k = 0
        · simp only [h0, if_true]; omega
        · have hlt : k.val < 255 := by
            have : k.val ≠ 255 := fun h => h0 ((incr_eq_zero_iff k).2 h)
            omega
          simp only [h0, if_false, incr_val_of_lt k hlt]
          omega
      by_cases hs : scoreLoop buffer k > m
      · obtain ⟨r, hr, hall, hcase⟩ := ih (incr k) (scoreLoop buffer k) k hfuel2
        refine ⟨r, by simp [keyLoop, hk, hs, hr], ?_, Or.inr ?_⟩
        · intro j hj
          rcases pending_split hj with rfl | hj2
          · rcases hcase with ⟨hreq, _⟩ | ⟨_, _, hlt, _⟩
            · rw [hreq]
            · exact Nat.le_of_lt hlt
          · exact hall j hj2
        · rcases hcase with ⟨hreq, _⟩ | ⟨hp, hsc, hlt, hfirst⟩
          · subst hreq
            exact ⟨⟨hk, Nat.le_refl _⟩, rfl, hs, fun j hj hjlt => absurd hj.2 (by simp at hjlt ⊢; omega)⟩
          · refine ⟨(pending_incr hk hp).1, hsc, Nat.lt_trans hs hlt, ?_⟩
            intro j hj hjlt
            rcases pending_split hj with rfl | hj2
            · exact hlt
            · exact hfirst j hj2 hjlt
      · have hs2 : scoreLoop buffer k ≤ m := Nat.le_of_not_gt hs
        obtain ⟨r, hr, hall, hcase⟩ := ih (incr k) m bk hfuel2
        refine ⟨r, by simp [keyLoop, hk, hs, hr], ?_, ?_⟩
        · intro j hj
          rcases pending_split hj with rfl | hj2
          · rcases hcase with ⟨hreq, _⟩ | ⟨_, _, hlt, _⟩
            · rw [hreq]; exact hs2
            · exact Nat.le_trans hs2 (Nat.le_of_lt hlt)
          · exact hall j hj2
        · rcases hcase with ⟨hreq, hle⟩ | ⟨hp, hsc, hlt, hfirst⟩
          · refine Or.inl ⟨hreq, ?_⟩
            intro j hj
            rcases pending_split hj with rfl | hj2
            · exact hs2
            · exact hle j hj2
          · refine Or.inr ⟨(pending_incr hk hp).1, hsc, hlt, ?_⟩
            intro j hj hjlt
            rcases pending_split hj with rfl | hj2
            · exact Nat.lt_of_le_of_lt hs2 hlt
            · exact hfirst j hj2 hjlt

theorem pending_one (j : Byte) : Pending 1 j ↔ j ≠ 0 := by
  constructor
  · intro h h0
    have := h.2
    rw [h0] at this
    exact absurd this (by decide)
  · intro h
    refine ⟨by decide, ?_⟩
    have : j.val ≠ 0 := fun h0 => h (Fin.ext h0)
    show 1 ≤ j.val
    omega

/-- The call `findBestScoringKey(buffer, len, maxScore)` returns, and its
result is the outcome of the candidate loop over the keys 1..255. -/
theorem findBestScoringKey_spec (buffer : List Byte) (f : Nat) :
    ∃ r, findBestScoringKey buffer f = some r ∧ LoopResult buffer 1 f 0 r :=
  keyLoop_spec buffer 256 1 f 0 (by decide)

theorem foldl_add_eq_sum {α : Type} (f : α → Nat) (l : List α) (init : Nat) :
    l.foldl (fun acc x => acc + f x) init = init + (l.map f).sum := by
  induction l generalizing init with
  | nil => simp
  | cons x xs ih => simp [List.foldl_cons, ih, Nat.add_assoc]

theorem scoreLoop_eq_sum (buffer : List Byte) (k : Byte) :
    scoreLoop buffer k = (buffer.map (fun b => charScore (bxor b k))).sum := by
  unfold scoreLoop
  rw [foldl_add_eq_sum (fun b => charScore (bxor b k)) buffer 0]
  simp

theorem scoreLoop_eq_score (buffer : List Byte) (k : Byte) :
    scoreLoop buffer k = score (printResults buffer k) := by
  rw [scoreLoop_eq_sum]
  simp [score, printResults, List.map_map, Function.comp_def]

theorem charScore_le : ∀ x : Byte, charScore x ≤ 14000 := by
  decide

/-- A score is at most 14000 per byte, so the `uint64_t` accumulator of
`findBestScoringKey` does not wrap for a buffer of fewer than `2 ^ 50` bytes. -/
theorem scoreLoop_le (buffer : List Byte) (k : Byte) :
    scoreLoop buffer k ≤ 14000 * buffer.length := by
  rw [scoreLoop_eq_sum]
  have h := List.sum_le_card_nsmul (buffer.map (fun b => charScore (bxor b k))) 14000
    (by
      intro x hx
      obtain ⟨b, _, rfl⟩ := List.mem_map.1 hx
      exact charScore_le _)
  simpa [Nat.mul_comm] using h

theorem bxor_bxor_cancel (a k : Byte) : bxor (bxor a k) k = a := by
  apply Fin.ext
  show (a.val ^^^ k.val) ^^^ k.val = a.val
  rw [Nat.xor_assoc, Nat.xor_self, Nat.xor_zero]

theorem printResults_printResults (buffer : List Byte) (k : Byte) :
    printResults (printResults buffer k) k = buffer := by
  simp [printResults, List.map_map, Function.comp_def, bxor_bxor_cancel]

/-- C1: called with `maxScore = 0`, `findBestScoringKey` returns; when the
returned key `k` is not 0, `k` maximises the candidate score over the keys
1..255, every smaller key in 1..255 scores strictly less, and `maxScore` on
return is the score of `k`. -/
theorem findBestScoringKey_first_maximiser (b : List Byte) :
    ∃ k m, findBestScoringKey b 0 = some (k, m) ∧
      (k ≠ 0 →
        (∀ j : Byte, j ≠ 0 → scoreLoop b j ≤ scoreLoop b k) ∧
        (∀ j : Byte, j ≠ 0 → j.val < k.val → scoreLoop b j < scoreLoop b k) ∧
        m = scoreLoop b k) := by
  obtain ⟨⟨k, m⟩, hr, hall, hcase⟩ := findBestScoringKey_spec b 0
  refine ⟨k, m, hr, fun hk => ?_⟩
  rcases hcase with ⟨hreq, _⟩ | ⟨_, hsc, _, hfirst⟩
  · exact absurd (congrArg Prod.fst hreq) hk
  · simp only at hsc hfirst hall
    refine ⟨fun j hj => ?_, fun j hj hlt => ?_, hsc.symm⟩
    · rw [hsc]; exact hall j ((pending_one j).2 hj)
    · rw [hsc]; exact hfirst j ((pending_one j).2 hj) hlt

/-- C1, instance: a four-byte buffer, for which key 23 is returned. -/
theorem findBestScoringKey_first_maximiser_witness :
    findBestScoringKey [0x1b, 0x37, 0x37, 0x33] 0 = some (23, 28052) ∧
    (∀ j : Byte, j ≠ 0 →
      scoreLoop [0x1b, 0x37, 0x37, 0x33] j ≤ scoreLoop [0x1b, 0x37, 0x37, 0x33] 23) ∧
    (∀ j : Byte, j ≠ 0 → j.val < (23 : Byte).val →
      scoreLoop [0x1b, 0x37, 0x37, 0x33] j < scoreLoop [0x1b, 0x37, 0x37, 0x33] 23) ∧
    28052 = scoreLoop [0x1b, 0x37, 0x37, 0x33] 23 := by
  obtain ⟨k, m, h, hp⟩ := findBestScoringKey_first_maximiser [0x1b, 0x37, 0x37, 0x33]
  have h2 : findBestScoringKey [0x1b, 0x37, 0x37, 0x33] 0 = some (23, 28052) := by decide
  rw [h2] at h
  cases h
  exact ⟨h2, hp (by decide)⟩

/-- C2: for every floor `f`, `findBestScoringKey` returns; it returns key 0 with
`maxScore` still `f` exactly when no key in 1..255 scores above `f`; otherwise
the key is in 1..255 and `maxScore` on return exceeds `f`; so key 0 is returned
exactly when no key was found. -/
theorem findBestScoringKey_sentinel_iff (b : List Byte) (f : Nat) :
    ∃ k m, findBestScoringKey b f = some (k, m) ∧
      ((k = 0 ∧ m = f) ↔ ∀ j : Byte, j ≠ 0 → scoreLoop b j ≤ f) ∧
      ((¬ ∀ j : Byte, j ≠ 0 → scoreLoop b j ≤ f) → k ≠ 0 ∧ f < m) ∧
      (k = 0 ↔ ∀ j : Byte, j ≠ 0 → scoreLoop b j ≤ f) := by
  obtain ⟨⟨k, m⟩, hr, hall, hcase⟩ := findBestScoringKey_spec b f
  refine ⟨k, m, hr, ?_⟩
  rcases hcase with ⟨hreq, hle⟩ | ⟨hp, hsc, hlt, _⟩
  · have hk : k = 0 := congrArg Prod.fst hreq
    have hm : m = f := congrArg Prod.snd hreq
    have hno : ∀ j : Byte, j ≠ 0 → scoreLoop b j ≤ f := fun j hj => hle j ((pending_one j).2 hj)
    exact ⟨⟨fun _ => hno, fun _ => ⟨hk, hm⟩⟩, fun h => absurd hno h, ⟨fun _ => hno, fun _ => hk⟩⟩
  · simp only at hp hsc hlt
    have hk : k ≠ 0 := (pending_one k).1 hp
    have hsome : ¬ ∀ j : Byte, j ≠ 0 → scoreLoop b j ≤ f := fun h => by
      have := h k hk
      omega
    exact ⟨⟨fun h => absurd h.1 hk, fun h => absurd h hsome⟩, fun _ => ⟨hk, hlt⟩,
      ⟨fun h => absurd h hk, fun h => absurd h hsome⟩⟩

/-- C3: if the buffer `b` scores strictly higher than the decode of its
ciphertext under key `k` (in 1..255) decoded with any other key in 1..255,
then `findBestScoringKey` on that ciphertext, with `maxScore = 0`, returns
`k`. -/
theorem findBestScoringKey_recovers_key (b : List Byte) (k : Byte) (hk : k ≠ 0)
    (hbest : ∀ k2 : Byte, k2 ≠ 0 → k2 ≠ k →
      score ((b.map (fun x => bxor x k)).map (fun x => bxor x k2)) < score b) :
    ∃ m, findBestScoringKey (b.map (fun x => bxor x k)) 0 = some (k, m) := by
  have hsc : ∀ k2 : Byte, scoreLoop (b.map (fun x => bxor x k)) k2 =
      score ((b.map (fun x => bxor x k)).map (fun x => bxor x k2)) := fun k2 =>
    scoreLoop_eq_score _ k2
  have hself : scoreLoop (b.map (fun x => bxor x k)) k = score b := by
    rw [hsc]
    exact congrArg score (printResults_printResults b k)
  obtain ⟨⟨k1, m⟩, hr, hall, hcase⟩ := findBestScoringKey_spec (b.map (fun x => bxor x k)) 0
  simp only at hall
  have hmax := hall k ((pending_one k).2 hk)
  rw [hself] at hmax
  rcases hcase with ⟨hreq, _⟩ | ⟨hp, hs1, _, _⟩
  · exfalso
    have hm : m = 0 := congrArg Prod.snd hreq
    obtain ⟨k2, h20, h2k⟩ : ∃ k2 : Byte, k2 ≠ 0 ∧ k2 ≠ k := by
      by_cases h1 : k = 1
      · exact ⟨2, by decide, by rw [h1]; decide⟩
      · exact ⟨1, by decide, fun h => h1 h.symm⟩
    have := hbest k2 h20 h2k
    omega
  · simp only at hp hs1
    have hk1 : k1 ≠ 0 := (pending_one k1).1 hp
    by_cases hkk : k1 = k
    · exact ⟨m, by rw [hr, hkk]⟩
    · exfalso
      have := hbest k1 hk1 hkk
      rw [← hsc, hs1] at this
      omega

/-- C3, instance: the one-byte buffer holding a space, encrypted under key
0x58, is recovered. -/
theorem findBestScoringKey_recovers_key_witness :
    (0x58 : Byte) ≠ 0 ∧
    (∀ k2 : Byte, k2 ≠ 0 → k2 ≠ 0x58 →
      score (([0x20].map (fun x => bxor x 0x58)).map (fun x => bxor x k2)) < score [0x20]) ∧
    ∃ m, findBestScoringKey ([0x20].map (fun x => bxor x 0x58)) 0 = some (0x58, m) :=
  ⟨by decide, by decide,
    findBestScoringKey_recovers_key [0x20] 0x58 (by decide) (by decide)⟩

/-- C7: the candidate score of `findBestScoringKey` is additive over
concatenation, for every key, and so is the frequency score. -/
theorem scoreLoop_append (a b : List Byte) (k : Byte) :
    scoreLoop (a ++ b) k = scoreLoop a k + scoreLoop b k ∧
    score (a ++ b) = score a + score b := by
  constructor
  · simp [scoreLoop_eq_sum]
  · simp [score]

/-! ## The Hamming distance helper -/

theorem bitLoop_acc (fuel x ed : Nat) :
    bitLoop fuel x ed = (bitLoop fuel x 0).map (fun c => ed + c) := by
  induction fuel generalizing x ed with
  | zero => simp [bitLoop]
  | succ fuel ih =>
    by_cases hx : x = 0
    · simp [bitLoop, hx]
    · simp only [bitLoop, hx, if_false]
      rw [ih _ (ed + 1), ih _ (0 + 1)]
      simp [Option.map_map, Function.comp_def, Nat.add_assoc]

theorem bitLoop_byte : ∀ x : Byte, bitLoop 256 x.val 0 = some (popcount x) := by
  decide

theorem bitLoop_popcount (x : Byte) (ed : Nat) :
    bitLoop 256 x.val ed = some (ed + popcount x) := by
  rw [bitLoop_acc, bitLoop_byte]
  rfl

theorem editLoop_eq (buffer : List Byte) (len : Nat) :
    ∀ (n i ed : Nat), len + i + n ≤ buffer.length →
      editLoop buffer len n i ed = some (ed + ((List.range n).map (fun j =>
        popcount (bxor (buffer.getD (i + j) 0) (buffer.getD (len + i + j) 0)))).sum) := by
  intro n
  induction n with
  | zero => intro i ed _; simp [editLoop]
  | succ n ih =>
    intro i ed h
    have h1 : i < buffer.length := by omega
    have h2 : len + i < buffer.length := by omega
    have e1 : buffer[i]? = some (buffer.getD i 0) := by
      rw [List.getD_eq_getElem?_getD, List.getElem?_eq_getElem h1]; rfl
    have e2 : buffer[len + i]? = some (buffer.getD (len + i) 0) := by
      rw [List.getD_eq_getElem?_getD, List.getElem?_eq_getElem h2]; rfl
    simp only [editLoop, e1, e2, bitLoop_popcount]
    rw [ih (i + 1) _ (by omega), List.range_succ_eq_map, List.map_cons, List.sum_cons,
      List.map_map]
    simp only [Function.comp_def, Nat.add_zero, Nat.succ_eq_add_one]
    have : ∀ j, i + 1 + j = i + (j + 1) ∧ len + (i + 1) + j = len + i + (j + 1) :=
      fun j => ⟨by omega, by omega⟩
    simp only [this, Nat.add_assoc]

theorem editDistance_eq (buffer : List Byte) (pos len : Nat)
    (h : pos + 2 * len ≤ buffer.length) :
    editDistance buffer pos len = some (hammingDistance buffer pos len) := by
  unfold editDistance hammingDistance
  rw [editLoop_eq buffer len len pos 0 (by omega)]
  simp only [Nat.zero_add, Nat.add_comm len pos]

theorem bxor_comm (a b : Byte) : bxor a b = bxor b a := by
  apply Fin.ext
  show a.val ^^^ b.val = b.val ^^^ a.val
  exact Nat.xor_comm _ _

theorem bxor_self (a : Byte) : bxor a a = 0 := by
  apply Fin.ext
  show a.val ^^^ a.val = 0
  exact Nat.xor_self _

theorem hammingDistance_append (a b : List Byte) :
    hammingDistance (a ++ b) 0 a.length =
      ((List.range a.length).map (fun j => popcount (bxor (a.getD j 0) (b.getD j 0)))).sum := by
  unfold hammingDistance
  congr 1
  apply List.map_congr_left
  intro j hj
  have hj2 : j < a.length := List.mem_range.1 hj
  rw [Nat.zero_add, Nat.zero_add, List.getD_append _ _ _ _ hj2,
    List.getD_append_right _ _ _ _ (by omega), Nat.add_sub_cancel_left]

/-- C9: for blocks `a` and `b` of equal length, `editDistance` on `a ++ b` and
on `b ++ a` (from position 0, block length `|a|`) return the same distance,
and on `a ++ a` it returns 0. -/
theorem editDistance_symm_and_self (a b : List Byte) (h : a.length = b.length) :
    (∃ d, editDistance (a ++ b) 0 a.length = some d ∧
          editDistance (b ++ a) 0 a.length = some d) ∧
    editDistance (a ++ a) 0 a.length = some 0 := by
  refine ⟨⟨hammingDistance (a ++ b) 0 a.length, ?_, ?_⟩, ?_⟩
  · exact editDistance_eq _ _ _ (by simp; omega)
  · rw [editDistance_eq _ _ _ (by simp; omega), hammingDistance_append a b, h,
      hammingDistance_append b a]
    simp only [bxor_comm]
  · rw [editDistance_eq _ _ _ (by simp; omega), hammingDistance_append a a]
    simp only [bxor_self]
    have : popcount 0 = 0 := by decide
    simp [this]

/-- C9, instance: two three-byte blocks. -/
theorem editDistance_symm_and_self_witness :
    (∃ d, editDistance (([0x01, 0x02, 0x03] : List Byte) ++ [0xff, 0x00, 0x10]) 0 3 = some d ∧
          editDistance (([0xff, 0x00, 0x10] : List Byte) ++ [0x01, 0x02, 0x03]) 0 3 = some d) ∧
    editDistance (([0x01, 0x02, 0x03] : List Byte) ++ [0x01, 0x02, 0x03]) 0 3 = some 0 :=
  editDistance_symm_and_self [0x01, 0x02, 0x03] [0xff, 0x00, 0x10] (by decide)

/-! ## XOR encoding -/

theorem xorWithKey_length (input key : List Byte) (n : Nat) :
    (xorWithKey input key n).length = n := by
  simp [xorWithKey]

theorem xorWithKey_getD (input key : List Byte) (n i : Nat) (h : i < n) :
    (xorWithKey input key n).getD i 0 =
      bxor (input.getD i 0) (key.getD (i % (strlen key + 1)) 0) := by
  have hl : i < (xorWithKey input key n).length := by rw [xorWithKey_length]; exact h
  rw [List.getD_eq_getElem _ _ hl]
  simp [xorWithKey]

/-! ## The encoder of challenge 5 applied twice -/

theorem xor_split (h1 h2 lo1 lo2 : Nat) (hl1 : lo1 < 2 ^ 8) (hl2 : lo2 < 2 ^ 8) :
    (2 ^ 8 * h1 + lo1) ^^^ (2 ^ 8 * h2 + lo2) = 2 ^ 8 * (h1 ^^^ h2) + (lo1 ^^^ lo2) := by
  apply Nat.eq_of_testBit_eq
  intro j
  rw [Nat.testBit_xor, Nat.testBit_mul_pow_two_add h1 hl1, Nat.testBit_mul_pow_two_add h2 hl2,
    Nat.testBit_mul_pow_two_add (h1 ^^^ h2) (Nat.xor_lt_two_pow hl1 hl2)]
  split
  · rw [Nat.testBit_xor]
  · rw [Nat.testBit_xor]

/-- The high 24 bits of the pattern of a promoted `char`. -/
theorem charToInt_eq (x : Byte) :
    charToInt x = 2 ^ 8 * (if x.val < 2 ^ 7 then 0 else 2 ^ 24 - 1) + x.val := by
  unfold charToInt
  split <;> norm_num
  omega

theorem sign_testBit : ∀ x : Byte, decide (x.val < 2 ^ 7) = !x.val.testBit 7 := by
  decide

theorem sign_bxor (a k : Byte) :
    ((bxor a k).val < 2 ^ 7) ↔ ((a.val < 2 ^ 7) ↔ (k.val < 2 ^ 7)) := by
  have ha := sign_testBit a
  have hk := sign_testBit k
  have hx := sign_testBit (bxor a k)
  have hb : (bxor a k).val.testBit 7 = (a.val.testBit 7 ^^ k.val.testBit 7) :=
    Nat.testBit_xor a.val k.val 7
  rw [hb] at hx
  cases h1 : a.val.testBit 7 <;> cases h2 : k.val.testBit 7 <;>
    simp only [h1, h2, Bool.not_true, Bool.not_false, Bool.xor_self, Bool.xor_false,
      Bool.false_xor, Bool.true_xor, decide_eq_true_eq, decide_eq_false_iff_not] at ha hk hx <;>
    omega

theorem intToChar_xor (a k : Byte) : intToChar (charToInt a ^^^ charToInt k) = bxor a k := by
  apply Fin.ext
  show (charToInt a ^^^ charToInt k) % 2 ^ 8 = a.val ^^^ k.val
  rw [charToInt_eq a, charToInt_eq k, xor_split _ _ _ _ a.isLt k.isLt, Nat.mul_add_mod,
    Nat.mod_eq_of_lt (Nat.xor_lt_two_pow a.isLt k.isLt)]

theorem charToInt_bxor_xor (a k : Byte) :
    charToInt (bxor a k) ^^^ charToInt k = charToInt a := by
  have hlow : (bxor a k).val ^^^ k.val = a.val := by
    show (a.val ^^^ k.val) ^^^ k.val = a.val
    rw [Nat.xor_assoc, Nat.xor_self, Nat.xor_zero]
  have hs := sign_bxor a k
  rw [charToInt_eq (bxor a k), charToInt_eq k, charToInt_eq a,
    xor_split _ _ _ _ (bxor a k).isLt k.isLt, hlow]
  congr 2
  by_cases h1 : a.val < 2 ^ 7 <;> by_cases h2 : k.val < 2 ^ 7 <;>
    simp only [h1, h2, iff_true, iff_false, true_iff, false_iff, not_true, not_false_eq_true] at hs <;>
    simp only [h1, h2, hs, if_true, if_false] <;> decide

theorem bxor_eq_zero_iff (a k : Byte) : bxor a k = 0 ↔ a = k := by
  constructor
  · intro h
    have h2 : bxor (bxor a k) k = bxor 0 k := by rw [h]
    rw [bxor_bxor_cancel] at h2
    rw [h2]
    apply Fin.ext
    show (0 : Nat) ^^^ k.val = k.val
    exact Nat.zero_xor _
  · intro h
    rw [h]; exact bxor_self k

theorem strlen_append_nul (b : List Byte) (h : ∀ x ∈ b, x ≠ 0) :
    strlen (b ++ [0]) = b.length := by
  induction b with
  | nil => decide
  | cons x xs ih =>
    have hx : x ≠ 0 := h x (List.mem_cons_self _ _)
    have := ih (fun y hy => h y (List.mem_cons_of_mem _ hy))
    unfold strlen at this ⊢
    rw [List.cons_append, List.takeWhile_cons]
    simp only [hx, ne_eq, not_false_eq_true, decide_True, if_true, List.length_cons]
    simp only [ne_eq] at this
    rw [this]

theorem main5Loop_append_nul (b key : List Byte) (h : ∀ x ∈ b, x ≠ 0) :
    main5Loop (b ++ [0]) key = (List.range b.length).map (fun i =>
      charToInt (b.getD i 0) ^^^ charToInt (key.getD (i % (strlen key + 1)) 0)) := by
  unfold main5Loop
  rw [strlen_append_nul b h]
  apply List.map_congr_left
  intro i hi
  rw [List.getD_append _ _ _ _ (List.mem_range.1 hi)]

theorem range_map_getD_gen {β : Type} (f : Byte → β) (b : List Byte) :
    (List.range b.length).map (fun i => f (b.getD i 0)) = b.map f := by
  apply List.ext_getElem
  · simp
  · intro i h1 h2
    have h3 : i < b.length := by simpa using h2
    simp [List.getElem?_eq_getElem h3]

theorem strlen_append_nul_le (l : List Byte) : strlen (l ++ [0]) ≤ l.length := by
  induction l with
  | nil => decide
  | cons x xs ih =>
    unfold strlen at ih ⊢
    rw [List.cons_append, List.takeWhile_cons]
    split
    · simp only [List.length_cons]; omega
    · simp

theorem toCharArray_main5Loop (b key : List Byte) (h : ∀ x ∈ b, x ≠ 0) :
    toCharArray (main5Loop (b ++ [0]) key) = xorWithKey b key b.length ++ [0] := by
  rw [main5Loop_append_nul b key h]
  simp only [toCharArray, xorWithKey, List.map_map, Function.comp_def, intToChar_xor]

theorem main5Loop_twice (b key : List Byte) (h : ∀ x ∈ b, x ≠ 0) :
    main5Loop (toCharArray (main5Loop (b ++ [0]) key)) key =
      (b.map charToInt).take (strlen (toCharArray (main5Loop (b ++ [0]) key))) := by
  rw [toCharArray_main5Loop b key h]
  have hm : strlen (xorWithKey b key b.length ++ [0]) ≤ b.length := by
    have := strlen_append_nul_le (xorWithKey b key b.length)
    rwa [xorWithKey_length] at this
  have hstep : main5Loop (xorWithKey b key b.length ++ [0]) key =
      (List.range (strlen (xorWithKey b key b.length ++ [0]))).map
        (fun i => charToInt (b.getD i 0)) := by
    unfold main5Loop
    apply List.map_congr_left
    intro i hi
    have hi2 : i < b.length := lt_of_lt_of_le (List.mem_range.1 hi) hm
    rw [List.getD_append _ _ _ _ (by rw [xorWithKey_length]; exact hi2),
      xorWithKey_getD b key b.length i hi2, charToInt_bxor_xor]
  rw [hstep, ← range_map_getD_gen charToInt b, ← List.map_take, List.take_range,
    min_eq_left hm]

theorem strlen_toCharArray (b key : List Byte) (h : ∀ x ∈ b, x ≠ 0)
    (hkey : ∀ i, i < b.length → b.getD i 0 ≠ key.getD (i % (strlen key + 1)) 0) :
    strlen (toCharArray (main5Loop (b ++ [0]) key)) = b.length := by
  rw [toCharArray_main5Loop b key h]
  have := strlen_append_nul (xorWithKey b key b.length) (by
    intro x hx h0
    obtain ⟨i, hi, rfl⟩ := List.mem_map.1 hx
    exact hkey i (List.mem_range.1 hi) ((bxor_eq_zero_iff _ _).1 h0))
  rwa [xorWithKey_length] at this

theorem main5Loop_INPUT : main5Loop INPUT KEY = main5.map (fun x => x.val) := by
  decide

theorem main5Loop_signed_char : main5Loop [0x80, 0x00] KEY = [0xffffffc9] := by
  decide

/-- C10 as stated fails for the transform of challenge 5: on the two chars
0x49 0x41 with the key `ICE` the first pass emits 00 02, whose first byte ends
the string, so the second pass emits nothing. -/
theorem main5Loop_twice_stops_at_nul :
    main5Loop [0x49, 0x41, 0x00] KEY = [0x00, 0x02] ∧
    toCharArray (main5Loop [0x49, 0x41, 0x00] KEY) = [0x00, 0x02, 0x00] ∧
    main5Loop (toCharArray (main5Loop [0x49, 0x41, 0x00] KEY)) KEY = [] ∧
    main5Loop (toCharArray (main5Loop [0x49, 0x41, 0x00] KEY)) KEY ≠
      [charToInt 0x49, charToInt 0x41] := by
  refine ⟨by decide, by decide, by decide, by decide⟩

/-- C10, amended: decoding with a single key byte, as `printResults` does, is
its own inverse. The loop of challenge 5, run on a NUL-free string `b` and
run again on its own output taken as a string, with the same key, gives back
the chars of `b` up to the first position where the first pass emitted a NUL,
and all of `b` when no byte of `b` equals the key byte selected for its
position. -/
theorem xor_twice_restores (b : List Byte) (k : Byte) (key : List Byte) :
    printResults (printResults b k) k = b ∧
    ((∀ x ∈ b, x ≠ 0) →
      main5Loop (toCharArray (main5Loop (b ++ [0]) (key ++ [0]))) (key ++ [0]) =
        (b.map charToInt).take (strlen (toCharArray (main5Loop (b ++ [0]) (key ++ [0]))))) ∧
    ((∀ x ∈ b, x ≠ 0) →
      (∀ i, i < b.length →
        b.getD i 0 ≠ (key ++ [0]).getD (i % (strlen (key ++ [0]) + 1)) 0) →
      main5Loop (toCharArray (main5Loop (b ++ [0]) (key ++ [0]))) (key ++ [0]) =
        b.map charToInt) := by
  refine ⟨printResults_printResults b k, fun h => main5Loop_twice b (key ++ [0]) h,
    fun h hkey => ?_⟩
  rw [main5Loop_twice b (key ++ [0]) h, strlen_toCharArray b (key ++ [0]) h hkey]
  have : (b.map charToInt).length = b.length := List.length_map _ _
  rw [← this, List.take_length]

/-- C10, amended, instance: the chars `Burn` and a byte 0x80 under the key
`ICE`. -/
theorem xor_twice_restores_witness :
    (∀ x ∈ ([0x42, 0x75, 0x72, 0x6e, 0x80] : List Byte), x ≠ 0) ∧
    (∀ i, i < ([0x42, 0x75, 0x72, 0x6e, 0x80] : List Byte).length →
      ([0x42, 0x75, 0x72, 0x6e, 0x80] : List Byte).getD i 0 ≠
        (([0x49, 0x43, 0x45] : List Byte) ++ [0]).getD
          (i % (strlen (([0x49, 0x43, 0x45] : List Byte) ++ [0]) + 1)) 0) ∧
    main5Loop (toCharArray (main5Loop ([0x42, 0x75, 0x72, 0x6e, 0x80] ++ [0])
        ([0x49, 0x43, 0x45] ++ [0]))) ([0x49, 0x43, 0x45] ++ [0]) =
      ([0x42, 0x75, 0x72, 0x6e, 0x80] : List Byte).map charToInt :=
  ⟨by decide, by decide,
    (xor_twice_restores [0x42, 0x75, 0x72, 0x6e, 0x80] 0 [0x49, 0x43, 0x45]).2.2
      (by decide) (by decide)⟩

/-- C6: the byte that challenge 5 emits at position 3 is `INPUT[3] ^ KEY[3]`,
which is 0x6e (the key array's terminating NUL is used as a fourth key byte),
whereas `INPUT[3] ^ KEY[3 mod 3]` is 0x27; the output starts
0b 36 37 6e 20 2d, not 0b 36 37 27 2a 2b. -/
theorem main5_uses_modulus_four :
    main5.getD 3 0 = 0x6e ∧
    bxor (INPUT.getD 3 0) (KEY.getD (3 % 3) 0) = 0x27 ∧
    main5.take 6 = [0x0b, 0x36, 0x37, 0x6e, 0x20, 0x2d] ∧
    strlen KEY = 3 ∧ strlen INPUT = 74 ∧
    ∀ i, i < 74 → main5.getD i 0 = bxor (INPUT.getD i 0) (KEY.getD (i % 4) 0) := by
  refine ⟨by decide, by decide, by decide, by decide, by decide, ?_⟩
  intro i hi
  have h74 : strlen INPUT = 74 := by decide
  have h3 : strlen KEY = 3 := by decide
  unfold main5
  rw [h74, xorWithKey_getD INPUT KEY 74 i hi, h3]

/-! ## Deinterleaving into columns -/

theorem column_index_lt (n k i j : Nat) (hi : i < k) (hj : j < n / k) : k * j + i < n := by
  have h1 : k * (j + 1) ≤ k * (n / k) := Nat.mul_le_mul_left k hj
  have h2 : k * (n / k) ≤ n := Nat.mul_div_le n k
  rw [Nat.mul_succ] at h1
  omega

theorem fillBlock_eq (decoded : List Byte) (k i : Nat) :
    ∀ m, (∀ j, j < m → k * j + i < decoded.length) →
      fillBlock decoded k i m = some ((List.range m).map (fun j => decoded.getD (k * j + i) 0)) := by
  intro m
  induction m with
  | zero => intro _; simp [fillBlock]
  | succ m ih =>
    intro h
    have hm := h m (Nat.lt_succ_self m)
    have e : decoded[k * m + i]? = some (decoded.getD (k * m + i) 0) := by
      rw [List.getD_eq_getElem?_getD, List.getElem?_eq_getElem hm]; rfl
    simp only [fillBlock, ih (fun j hj => h j (Nat.lt_succ_of_lt hj)), e, List.range_succ,
      List.map_append, List.map_cons, List.map_nil]

/-- C5 as stated fails: for a 7-byte buffer and key length 3, column 0 holds
the bytes at positions 0 and 3 only, while the bytes at the positions below 7
congruent to 0 modulo 3 are those at 0, 3 and 6. -/
theorem column_drops_trailing_bytes :
    column [0x10, 0x11, 0x12, 0x13, 0x14, 0x15, 0x16] 3 0 = some [0x10, 0x13] ∧
    residueColumn [0x10, 0x11, 0x12, 0x13, 0x14, 0x15, 0x16] 3 0 = [0x10, 0x13, 0x16] ∧
    column [0x10, 0x11, 0x12, 0x13, 0x14, 0x15, 0x16] 3 0 ≠
      some (residueColumn [0x10, 0x11, 0x12, 0x13, 0x14, 0x15, 0x16] 3 0) := by
  refine ⟨by decide, by decide, by decide⟩

/-- C5, amended: for key length `k > 0` and `i < k`, column `i` holds the
`n / k` bytes at positions `i, i + k, ..., i + (n / k - 1) * k`, in order, all
of them inside the buffer; each position below `k * (n / k)` lies in exactly
one column, and no position from `k * (n / k)` on lies in any column. -/
theorem column_eq (decoded : List Byte) (k i : Nat) (hk : 0 < k) (hi : i < k) :
    column decoded k i =
      some ((List.range (decoded.length / k)).map (fun j => decoded.getD (k * j + i) 0)) ∧
    (∀ j, j < decoded.length / k → k * j + i < decoded.length) ∧
    (∀ p, p < k * (decoded.length / k) →
      ∃! c : Nat × Nat, c.1 < k ∧ c.2 < decoded.length / k ∧ k * c.2 + c.1 = p) ∧
    (∀ p c j, k * (decoded.length / k) ≤ p → c < k → j < decoded.length / k →
      k * j + c ≠ p) := by
  have hb : ∀ j, j < decoded.length / k → k * j + i < decoded.length :=
    fun j hj => column_index_lt decoded.length k i j hi hj
  refine ⟨?_, hb, ?_, ?_⟩
  · have hk0 : k ≠ 0 := Nat.pos_iff_ne_zero.1 hk
    simp only [column, hk0, if_false]
    exact fillBlock_eq decoded k i _ hb
  · intro p hp
    refine ⟨(p % k, p / k), ⟨Nat.mod_lt p hk, ?_, Nat.div_add_mod p k⟩, ?_⟩
    · exact (Nat.div_lt_iff_lt_mul hk).2 (by rw [Nat.mul_comm] at hp; exact hp)
    · rintro ⟨c, j⟩ ⟨hc, _, hcj⟩
      simp only at hc hcj
      have h1 : p % k = c := by
        rw [← hcj, Nat.mul_add_mod, Nat.mod_eq_of_lt hc]
      have h2 : p / k = j := by
        rw [← hcj, Nat.mul_add_div hk, Nat.div_eq_of_lt hc, Nat.add_zero]
      rw [h1, h2]
  · intro p c j hp hc hj h
    have h1 : k * (j + 1) ≤ k * (decoded.length / k) := Nat.mul_le_mul_left k hj
    rw [Nat.mul_succ] at h1
    omega

/-- C5, amended, instance: a 7-byte buffer, key length 3, column 0. -/
theorem column_eq_witness :
    column [0x10, 0x11, 0x12, 0x13, 0x14, 0x15, 0x16] 3 0 =
      some ((List.range (([0x10, 0x11, 0x12, 0x13, 0x14, 0x15, 0x16] : List Byte).length / 3)).map
        (fun j => ([0x10, 0x11, 0x12, 0x13, 0x14, 0x15, 0x16] : List Byte).getD (3 * j + 0) 0)) :=
  (column_eq [0x10, 0x11, 0x12, 0x13, 0x14, 0x15, 0x16] 3 0 (by decide) (by decide)).1

/-! ## Rounding to `float` -/

theorem roundHalfEven_err (y : ℚ) : |(roundHalfEven y : ℚ) - y| ≤ 1 / 2 := by
  have h1 : (⌊y⌋ : ℚ) ≤ y := Int.floor_le y
  have h2 : y < (⌊y⌋ : ℚ) + 1 := Int.lt_floor_add_one y
  unfold roundHalfEven
  rw [abs_le]
  split_ifs with c1 c2 c3
  · constructor <;> linarith
  · push_cast; constructor <;> linarith
  · have c4 : y - ⌊y⌋ = 1 / 2 := le_antisymm (not_lt.1 c2) (not_lt.1 c1)
    constructor <;> linarith
  · have c4 : y - ⌊y⌋ = 1 / 2 := le_antisymm (not_lt.1 c2) (not_lt.1 c1)
    push_cast; constructor <;> linarith

theorem roundHalfEven_intCast (z : ℤ) : roundHalfEven (z : ℚ) = z := by
  unfold roundHalfEven
  simp

theorem f32_zero : f32 0 = 0 := by simp [f32]

theorem f32_rel_err (q : ℚ) (hq : 0 < q) (hmin : (2 : ℚ) ^ (-126 : ℤ) ≤ q) :
    |f32 q - q| ≤ q * 2 ^ (-24 : ℤ) := by
  have habs : |q| = q := abs_of_pos hq
  have hle : (2 : ℚ) ^ Int.log 2 q ≤ q := by
    have := Int.zpow_log_le_self (b := 2) (r := q) (by norm_num) hq
    simpa using this
  have hge : (-126 : ℤ) ≤ Int.log 2 q := by
    have := (Int.zpow_le_iff_le_log (b := 2) (x := -126) (r := q) (by norm_num) hq).1
      (by simpa using hmin)
    exact this
  have hq0 : q ≠ 0 := ne_of_gt hq
  simp only [f32, hq0, if_false, habs, max_eq_left hge]
  set e := Int.log 2 q with he
  have h2 : (2 : ℚ) ≠ 0 := by norm_num
  have hcancel : q = q * 2 ^ (23 - e) * 2 ^ (e - 23) := by
    rw [mul_assoc, ← zpow_add₀ h2]
    simp
  have hpos : (0 : ℚ) < 2 ^ (e - 23) := zpow_pos (by norm_num) _
  have key : (roundHalfEven (q * 2 ^ (23 - e)) : ℚ) * 2 ^ (e - 23) - q =
      ((roundHalfEven (q * 2 ^ (23 - e)) : ℚ) - q * 2 ^ (23 - e)) * 2 ^ (e - 23) := by
    rw [sub_mul, ← hcancel]
  rw [key, abs_mul, abs_of_pos hpos]
  have herr := roundHalfEven_err (q * 2 ^ (23 - e))
  have hsplit : (2 : ℚ) ^ (e - 23) = 2 ^ e * 2 ^ (-23 : ℤ) := by
    rw [← zpow_add₀ h2]; rfl
  calc |(roundHalfEven (q * 2 ^ (23 - e)) : ℚ) - q * 2 ^ (23 - e)| * 2 ^ (e - 23)
      ≤ 1 / 2 * 2 ^ (e - 23) := mul_le_mul_of_nonneg_right herr (le_of_lt hpos)
    _ = 2 ^ e * 2 ^ (-24 : ℤ) := by rw [hsplit]; norm_num; ring
    _ ≤ q * 2 ^ (-24 : ℤ) := mul_le_mul_of_nonneg_right hle (by positivity)

theorem f32_natCast (n : ℕ) (h : n < 2 ^ 24) : f32 (n : ℚ) = n := by
  by_cases hn : n = 0
  · subst hn; simp [f32]
  have hq : (0 : ℚ) < n := by exact_mod_cast Nat.pos_of_ne_zero hn
  have hq0 : (n : ℚ) ≠ 0 := ne_of_gt hq
  have habs : |(n : ℚ)| = n := abs_of_pos hq
  have hlog : Int.log 2 (n : ℚ) = Nat.log 2 n := Int.log_natCast 2 n
  have hlt : Nat.log 2 n < 24 := Nat.log_lt_of_lt_pow hn h
  have hge : (-126 : ℤ) ≤ (Nat.log 2 n : ℤ) := by omega
  simp only [f32, hq0, if_false, habs, hlog, max_eq_left hge]
  have h2 : (2 : ℚ) ≠ 0 := by norm_num
  have hexp : (23 : ℤ) - (Nat.log 2 n : ℤ) = ((23 - Nat.log 2 n : ℕ) : ℤ) := by omega
  have hint : (n : ℚ) * 2 ^ ((23 : ℤ) - (Nat.log 2 n : ℤ)) =
      (((n * 2 ^ (23 - Nat.log 2 n) : ℕ) : ℤ) : ℚ) := by
    rw [hexp, zpow_natCast]; push_cast; ring
  rw [hint, roundHalfEven_intCast, ← hint, mul_assoc, ← zpow_add₀ h2]
  simp


theorem f32_lt_of_sep (p q : ℚ) (hp : p = 0 ∨ (2 : ℚ) ^ (-126 : ℤ) ≤ p) (hpq : p < q)
    (hq8 : q ≤ 8) (hsep : 1 / 1521 ≤ q - p) : f32 p < f32 q := by
  have hp0 : 0 ≤ p := by
    rcases hp with h | h
    · exact le_of_eq h.symm
    · exact le_trans (by positivity) h
  have hq0 : 0 < q := lt_of_le_of_lt hp0 hpq
  have hqmin : (2 : ℚ) ^ (-126 : ℤ) ≤ q := by
    have h1 : (2 : ℚ) ^ (-126 : ℤ) ≤ 1 / 1521 := by norm_num
    have h2 : (1 : ℚ) / 1521 ≤ q := by linarith
    exact le_trans h1 h2
  have hc : (2 : ℚ) ^ (-24 : ℤ) = 1 / 16777216 := by norm_num
  have eq := abs_le.1 (f32_rel_err q hq0 hqmin)
  rw [hc] at eq
  have ep : p - p * (1 / 16777216) ≤ f32 p ∧ f32 p ≤ p + p * (1 / 16777216) := by
    rcases hp with h | h
    · subst h; simp [f32_zero]
    · have hpp : 0 < p := lt_of_lt_of_le (by positivity) h
      have := abs_le.1 (f32_rel_err p hpp h)
      rw [hc] at this
      constructor <;> linarith [this.1, this.2]
  linarith [eq.1, ep.2]

/-! ## The key-length estimator -/

theorem trialLoop_eq (buffer : List Byte) (len : Nat) :
    ∀ (n i sum : Nat), 2 * (i + n) * len ≤ buffer.length →
      trialLoop buffer len n i sum = some (sum + ((List.range n).map (fun t =>
        hammingDistance buffer (2 * (i + t) * len) len)).sum) := by
  intro n
  induction n with
  | zero => intro i sum _; simp [trialLoop]
  | succ n ih =>
    intro i sum h
    have hb : 2 * i * len + 2 * len ≤ buffer.length := by
      have : 2 * (i + 1) * len ≤ 2 * (i + (n + 1)) * len :=
        Nat.mul_le_mul_right len (by omega)
      have e : 2 * (i + 1) * len = 2 * i * len + 2 * len := by ring
      omega
    have hn : 2 * (i + 1 + n) * len ≤ buffer.length := by
      have e : i + 1 + n = i + (n + 1) := by omega
      rw [e]; exact h
    simp only [trialLoop, editDistance_eq buffer (2 * i * len) len hb]
    rw [ih (i + 1) _ hn, List.range_succ_eq_map, List.map_cons, List.sum_cons, List.map_map]
    simp only [Function.comp_def, Nat.add_zero, Nat.succ_eq_add_one]
    have e : ∀ t, i + 1 + t = i + (t + 1) := fun t => by omega
    simp only [e, Nat.add_assoc]

theorem averageEditDistance_eq (buffer : List Byte) (len : Nat)
    (h : 16 * len ≤ buffer.length) :
    averageEditDistance buffer len = some (averageDistance buffer len) := by
  have h2 : 2 * (0 + 8) * len ≤ buffer.length := by omega
  simp only [averageEditDistance, HAMMING_TRIALS, trialLoop_eq buffer len 8 0 0 h2,
    averageDistance, Nat.zero_add]

theorem popcount_le : ∀ x : Byte, popcount x ≤ 8 := by
  decide

theorem hammingDistance_le (buffer : List Byte) (pos len : Nat) :
    hammingDistance buffer pos len ≤ 8 * len := by
  unfold hammingDistance
  have h := List.sum_le_card_nsmul ((List.range len).map (fun j =>
    popcount (bxor (buffer.getD (pos + j) 0) (buffer.getD (pos + len + j) 0)))) 8
    (by
      intro x hx
      obtain ⟨j, _, rfl⟩ := List.mem_map.1 hx
      exact popcount_le _)
  simpa [Nat.mul_comm] using h

theorem averageDistance_le (buffer : List Byte) (L : Nat) :
    averageDistance buffer L ≤ 8 * L := by
  unfold averageDistance
  have h := List.sum_le_card_nsmul ((List.range 8).map (fun t =>
    hammingDistance buffer (2 * t * L) L)) (8 * L)
    (by
      intro x hx
      obtain ⟨t, _, rfl⟩ := List.mem_map.1 hx
      exact hammingDistance_le _ _ _)
  simp only [List.length_map, List.length_range, smul_eq_mul] at h
  exact Nat.div_le_of_le_mul h

theorem normED_eq (avg L : Nat) (ha : avg < 2 ^ 24) (hL : L < 2 ^ 24) :
    normED avg L = f32 ((avg : ℚ) / (L : ℚ)) := by
  unfold normED
  rw [f32_natCast avg ha, f32_natCast L hL]

theorem normED_lt_of_lt (a L a2 L2 : Nat) (hL : 0 < L) (hL40 : L < 40)
    (hL2 : 0 < L2) (hL240 : L2 < 40) (ha : a ≤ 8 * L) (ha2 : a2 ≤ 8 * L2)
    (hlt : (a : ℚ) / (L : ℚ) < (a2 : ℚ) / (L2 : ℚ)) : normED a L < normED a2 L2 := by
  have hLq : (0 : ℚ) < L := by exact_mod_cast hL
  have hL2q : (0 : ℚ) < L2 := by exact_mod_cast hL2
  rw [normED_eq a L (by norm_num; omega) (by norm_num; omega),
    normED_eq a2 L2 (by norm_num; omega) (by norm_num; omega)]
  have hcross : a * L2 < a2 * L := by
    have := (div_lt_div_iff₀ hLq hL2q).1 hlt
    exact_mod_cast this
  have hLL : L * L2 ≤ 1521 := by
    have : L * L2 ≤ 39 * 39 := Nat.mul_le_mul (by omega) (by omega)
    omega
  apply f32_lt_of_sep _ _ _ hlt
  · rw [div_le_iff₀ hL2q]
    exact_mod_cast (by omega : a2 ≤ 8 * L2)
  · have hnum : (a : ℚ) * L2 + 1 ≤ (a2 : ℚ) * L := by exact_mod_cast hcross
    have hden : (L : ℚ) * L2 ≤ 1521 := by exact_mod_cast hLL
    have hpos : (0 : ℚ) < L * L2 := mul_pos hLq hL2q
    have e : (a2 : ℚ) / L2 - (a : ℚ) / L = ((a2 : ℚ) * L - a * L2) / (L * L2) := by
      field_simp
      ring
    rw [e, div_le_div_iff₀ (by norm_num) hpos]
    nlinarith
  · by_cases h0 : a = 0
    · left; simp [h0]
    · right
      have ha1 : (1 : ℚ) ≤ a := by exact_mod_cast Nat.pos_of_ne_zero h0
      have hL39 : (L : ℚ) ≤ 39 := by exact_mod_cast (by omega : L ≤ 39)
      have h1 : (2 : ℚ) ^ (-126 : ℤ) ≤ 1 / 39 := by norm_num
      have h2 : (1 : ℚ) / 39 ≤ (a : ℚ) / L := by
        rw [div_le_div_iff₀ (by norm_num) hLq]
        nlinarith
      exact le_trans h1 h2

theorem normED_lt_iff (a L a2 L2 : Nat) (hL : 0 < L) (hL40 : L < 40)
    (hL2 : 0 < L2) (hL240 : L2 < 40) (ha : a ≤ 8 * L) (ha2 : a2 ≤ 8 * L2) :
    normED a L < normED a2 L2 ↔ (a : ℚ) / (L : ℚ) < (a2 : ℚ) / (L2 : ℚ) := by
  constructor
  · intro h
    by_contra hn
    rcases lt_or_eq_of_le (not_lt.1 hn) with h2 | h2
    · exact absurd (normED_lt_of_lt a2 L2 a L hL2 hL240 hL hL40 ha2 ha h2) (not_lt.2 (le_of_lt h))
    · rw [normED_eq a L (by norm_num; omega) (by norm_num; omega),
        normED_eq a2 L2 (by norm_num; omega) (by norm_num; omega), h2] at h
      exact lt_irrefl _ h
  · exact normED_lt_of_lt a L a2 L2 hL hL40 hL2 hL240 ha ha2

theorem normED_le_eight (a L : Nat) (hL : 0 < L) (hL40 : L < 40) (ha : a ≤ 8 * L) :
    normED a L ≤ 8 := by
  have hLq : (0 : ℚ) < L := by exact_mod_cast hL
  rw [normED_eq a L (by norm_num; omega) (by norm_num; omega)]
  have h8 : f32 8 = 8 := by
    have := f32_natCast 8 (by norm_num)
    simpa using this
  have hle : (a : ℚ) / L ≤ 8 := by
    rw [div_le_iff₀ hLq]
    exact_mod_cast ha
  rcases lt_or_eq_of_le hle with hlt | heq
  · have hcross : a < 8 * L := by
      have := (div_lt_iff₀ hLq).1 hlt
      exact_mod_cast this
    have hsep : (1 : ℚ) / 1521 ≤ 8 - (a : ℚ) / L := by
      have h1 : (a : ℚ) + 1 ≤ 8 * L := by exact_mod_cast hcross
      have hL39 : (L : ℚ) ≤ 39 := by exact_mod_cast (by omega : L ≤ 39)
      have h2 : (a : ℚ) / L ≤ 8 - 1 / L := by
        rw [div_le_iff₀ hLq, sub_mul]
        field_simp
        linarith
      have h3 : (1 : ℚ) / 1521 ≤ 1 / L := by
        rw [div_le_div_iff₀ (by norm_num) hLq]
        linarith
      linarith
    have hp : (a : ℚ) / L = 0 ∨ (2 : ℚ) ^ (-126 : ℤ) ≤ (a : ℚ) / L := by
      by_cases h0 : a = 0
      · left; simp [h0]
      · right
        have ha1 : (1 : ℚ) ≤ a := by exact_mod_cast Nat.pos_of_ne_zero h0
        have hL39 : (L : ℚ) ≤ 39 := by exact_mod_cast (by omega : L ≤ 39)
        have h1 : (2 : ℚ) ^ (-126 : ℤ) ≤ 1 / 39 := by norm_num
        have h2 : (1 : ℚ) / 39 ≤ (a : ℚ) / L := by
          rw [div_le_div_iff₀ (by norm_num) hLq]
          nlinarith
        exact le_trans h1 h2
    have := f32_lt_of_sep _ 8 hp hlt (le_refl _) hsep
    rw [h8] at this
    exact le_of_lt this
  · rw [heq, h8]

theorem keyLengthLoop_spec (buffer : List Byte) (hlen : 624 ≤ buffer.length) :
    ∀ (n L : Nat) (m : ℚ) (g : Nat), L + n ≤ 40 →
      ∃ r, keyLengthLoop buffer n L m g = some r ∧
        ((r = g ∧ ∀ L2, L ≤ L2 → L2 < L + n → m ≤ normED (averageDistance buffer L2) L2) ∨
         (L ≤ r ∧ r < L + n ∧ normED (averageDistance buffer r) r < m ∧
           (∀ L2, L ≤ L2 → L2 < r →
             normED (averageDistance buffer r) r < normED (averageDistance buffer L2) L2) ∧
           (∀ L2, r ≤ L2 → L2 < L + n →
             normED (averageDistance buffer r) r ≤ normED (averageDistance buffer L2) L2))) := by
  intro n
  induction n with
  | zero =>
    intro L m g _
    exact ⟨g, rfl, Or.inl ⟨rfl, fun L2 h1 h2 => absurd h2 (by omega)⟩⟩
  | succ n ih =>
    intro L m g hL
    have havg := averageEditDistance_eq buffer L (by omega)
    by_cases hc : normED (averageDistance buffer L) L < m
    · obtain ⟨r, hr, hcase⟩ := ih (L + 1) (normED (averageDistance buffer L) L) L (by omega)
      refine ⟨r, by simp only [keyLengthLoop, havg, hc, if_true, hr], Or.inr ?_⟩
      rcases hcase with ⟨hrg, hall⟩ | ⟨h1, h2, h3, h4, h5⟩
      · subst hrg
        refine ⟨le_refl _, by omega, hc, fun L2 a b => absurd b (by omega), ?_⟩
        intro L2 a b
        rcases Nat.eq_or_lt_of_le a with heq | hlt
        · rw [← heq]
        · exact hall L2 hlt (by omega)
      · refine ⟨by omega, by omega, lt_trans h3 hc, ?_, fun L2 a b => h5 L2 a (by omega)⟩
        intro L2 a b
        rcases Nat.eq_or_lt_of_le a with heq | hlt
        · rw [← heq]; exact h3
        · exact h4 L2 hlt b
    · obtain ⟨r, hr, hcase⟩ := ih (L + 1) m g (by omega)
      refine ⟨r, by simp only [keyLengthLoop, havg, hc, if_false, hr], ?_⟩
      rcases hcase with ⟨hrg, hall⟩ | ⟨h1, h2, h3, h4, h5⟩
      · refine Or.inl ⟨hrg, ?_⟩
        intro L2 a b
        rcases Nat.eq_or_lt_of_le a with heq | hlt
        · rw [← heq]; exact not_lt.1 hc
        · exact hall L2 hlt (by omega)
      · refine Or.inr ⟨by omega, by omega, h3, ?_, fun L2 a b => h5 L2 a (by omega)⟩
        intro L2 a b
        rcases Nat.eq_or_lt_of_le a with heq | hlt
        · rw [← heq]; exact lt_of_lt_of_le h3 (not_lt.1 hc)
        · exact h4 L2 hlt b

/-- C4: on a buffer of at least 624 bytes `findKeyLength` returns a length `L`
in `[2, 40)` whose normalised distance, as an exact rational, is strictly
below that of every smaller length in the range and at most that of every
larger one; the distances entering it are those `editDistance` returns for
trial `t` at position `2 * t * L`. -/
theorem findKeyLength_minimises (buffer : List Byte) (h : 624 ≤ buffer.length) :
    ∃ L, findKeyLength buffer = some L ∧ 2 ≤ L ∧ L < 40 ∧
      (∀ L2, 2 ≤ L2 → L2 < L →
        normalisedDistance buffer L < normalisedDistance buffer L2) ∧
      (∀ L2, L < L2 → L2 < 40 →
        normalisedDistance buffer L ≤ normalisedDistance buffer L2) ∧
      (∀ L2 t, 2 ≤ L2 → L2 < 40 → t < 8 →
        editDistance buffer (2 * t * L2) L2 = some (hammingDistance buffer (2 * t * L2) L2)) ∧
      (∀ L2, 2 ≤ L2 → L2 < 40 →
        averageEditDistance buffer L2 = some (averageDistance buffer L2)) := by
  obtain ⟨r, hr, hcase⟩ := keyLengthLoop_spec buffer h 38 2 (f32 999999) 0 (by norm_num)
  have hinit : f32 999999 = 999999 := by
    have := f32_natCast 999999 (by norm_num)
    simpa using this
  have hiff : ∀ L L2, 2 ≤ L → L < 40 → 2 ≤ L2 → L2 < 40 →
      (normED (averageDistance buffer L) L < normED (averageDistance buffer L2) L2 ↔
        normalisedDistance buffer L < normalisedDistance buffer L2) := fun L L2 a b c d =>
    normED_lt_iff _ L _ L2 (by omega) b (by omega) d (averageDistance_le buffer L)
      (averageDistance_le buffer L2)
  rcases hcase with ⟨_, hall⟩ | ⟨h1, h2, _, h4, h5⟩
  · exfalso
    have h8 := normED_le_eight (averageDistance buffer 2) 2 (by norm_num) (by norm_num)
      (averageDistance_le buffer 2)
    have := hall 2 (le_refl _) (by norm_num)
    rw [hinit] at this
    linarith
  · refine ⟨r, hr, h1, by omega, ?_, ?_, ?_, ?_⟩
    · intro L2 a b
      exact (hiff r L2 h1 (by omega) a (by omega)).1 (h4 L2 a b)
    · intro L2 a b
      have := h5 L2 (le_of_lt a) (by omega)
      by_contra hn
      exact absurd ((hiff L2 r (by omega) b h1 (by omega)).2 (not_le.1 hn)) (not_lt.2 this)
    · intro L2 t a b c
      apply editDistance_eq
      have e1 : 2 * t * L2 ≤ 2 * 7 * L2 := Nat.mul_le_mul_right L2 (by omega)
      have e2 : 16 * L2 ≤ 16 * 39 := Nat.mul_le_mul_left 16 (by omega)
      omega
    · intro L2 a b
      exact averageEditDistance_eq buffer L2 (by omega)

/-- C4, instance: a buffer of 624 zero bytes. -/
theorem findKeyLength_minimises_witness :
    624 ≤ (List.replicate 624 (0 : Byte)).length ∧
    ∃ L, findKeyLength (List.replicate 624 (0 : Byte)) = some L ∧ 2 ≤ L ∧ L < 40 ∧
      (∀ L2, 2 ≤ L2 → L2 < L →
        normalisedDistance (List.replicate 624 (0 : Byte)) L <
          normalisedDistance (List.replicate 624 (0 : Byte)) L2) ∧
      (∀ L2, L < L2 → L2 < 40 →
        normalisedDistance (List.replicate 624 (0 : Byte)) L ≤
          normalisedDistance (List.replicate 624 (0 : Byte)) L2) :=
  ⟨by simp, by
    obtain ⟨L, h1, h2, h3, h4, h5, _⟩ :=
      findKeyLength_minimises (List.replicate 624 (0 : Byte)) (by simp)
    exact ⟨L, h1, h2, h3, h4, h5⟩⟩

/-! ## Boundary and end-to-end behaviour of the single-byte breaker -/

/-- C14: for the empty buffer every candidate key scores 0, and
`findBestScoringKey` with `maxScore = 0` returns key 0 with `maxScore` still 0. -/
theorem findBestScoringKey_empty :
    (∀ k : Byte, scoreLoop [] k = 0) ∧ findBestScoringKey [] 0 = some (0, 0) := by
  refine ⟨fun k => rfl, by decide⟩

/-- C15: the 34-byte ciphertext of challenge 3 is the sentence
`Cooking MC's like a pound of bacon` XOR-ed with 0x58; on it
`findBestScoringKey` with `maxScore = 0` returns the key 0x58, and XOR-ing
the ciphertext with that key gives the sentence back. -/
theorem findBestScoringKey_challenge3 :
    CIPHERTEXT3 = SENTENCE3.map (fun x => bxor x 0x58) ∧
    findBestScoringKey CIPHERTEXT3 0 = some (0x58, 167728) ∧
    printResults CIPHERTEXT3 0x58 = SENTENCE3 := by
  refine ⟨by decide, by decide, by decide⟩

/-! ## Termination of the candidate loop -/

theorem keyLoop_fuel_succ (buffer : List Byte) :
    ∀ (fuel : Nat) (k : Byte) (m : Nat) (bk : Byte) (r : Byte × Nat),
      keyLoop buffer fuel k m bk = some r → keyLoop buffer (fuel + 1) k m bk = some r := by
  intro fuel
  induction fuel with
  | zero => intro k m bk r h; simp [keyLoop] at h
  | succ fuel ih =>
    intro k m bk r h
    by_cases hk : k = 0
    · simpa [keyLoop, hk] using h
    · by_cases hs : scoreLoop buffer k > m
      · have h2 : keyLoop buffer fuel (incr k) (scoreLoop buffer k) k = some r := by
          simpa [keyLoop, hk, hs] using h
        have h3 := ih _ _ _ _ h2
        rw [keyLoop]
        simp only [hk, if_false, hs, if_true]
        exact h3
      · have h2 : keyLoop buffer fuel (incr k) m bk = some r := by
          simpa [keyLoop, hk, hs] using h
        have h3 := ih _ _ _ _ h2
        rw [keyLoop]
        simp only [hk, if_false, hs]
        exact h3

theorem keyLoop_fuel_le (buffer : List Byte) (fuel extra : Nat) (k : Byte) (m : Nat) (bk : Byte)
    (r : Byte × Nat) (h : keyLoop buffer fuel k m bk = some r) :
    keyLoop buffer (fuel + extra) k m bk = some r := by
  induction extra with
  | zero => exact h
  | succ e ih => exact keyLoop_fuel_succ buffer _ _ _ _ _ ih

theorem keyLoopTrace_spec (buffer : List Byte) :
    ∀ (fuel : Nat) (k : Byte) (m : Nat) (bk : Byte) (tried : List Byte),
      (if k = 0 then 0 else 256 - k.val) < fuel →
      ∃ r tail, keyLoopTrace buffer fuel k m bk tried = some (r.1, r.2, tried ++ tail) ∧
        keyLoop buffer fuel k m bk = some r ∧
        tail.map Fin.val = (if k = 0 then [] else List.range' k.val (256 - k.val)) := by
  intro fuel
  induction fuel with
  | zero => intro k m bk tried h; omega
  | succ fuel ih =>
    intro k m bk tried hfuel
    by_cases hk : k = 0
    · exact ⟨(bk, m), [], by simp [keyLoopTrace, hk], by simp [keyLoop, hk], by simp [hk]⟩
    · have hkv : k.val ≠ 0 := fun h => hk (Fin.ext h)
      have hklt := k.isLt
      have hfuel2 : (if incr k = 0 then 0 else 256 - (incr k).val) < fuel := by
        simp only [hk, if_false] at hfuel
        by_cases h0 : incr k = 0
        · simp only [h0, if_true]; omega
        · have hlt : k.val < 255 := by
            have : k.val ≠ 255 := fun h => h0 ((incr_eq_zero_iff k).2 h)
            omega
          simp only [h0, if_false, incr_val_of_lt k hlt]
          omega
      have htail : ∀ tail : List Byte,
          tail.map Fin.val = (if incr k = 0 then [] else List.range' (incr k).val (256 - (incr k).val)) →
          (k :: tail).map Fin.val = List.range' k.val (256 - k.val) := by
        intro tail ht
        have e : 256 - k.val = (255 - k.val) + 1 := by omega
        rw [List.map_cons, ht, e, List.range'_succ]
        by_cases h0 : incr k = 0
        · have := (incr_eq_zero_iff k).1 h0
          simp [h0, this]
        · have hlt : k.val < 255 := by
            have : k.val ≠ 255 := fun h => h0 ((incr_eq_zero_iff k).2 h)
            omega
          have e2 : 256 - (k.val + 1) = 255 - k.val := by omega
          simp [h0, incr_val_of_lt k hlt, e2]
      by_cases hs : scoreLoop buffer k > m
      · obtain ⟨r, tail, h1, h2, h3⟩ := ih (incr k) (scoreLoop buffer k) k (tried ++ [k]) hfuel2
        refine ⟨r, k :: tail, ?_, by simp [keyLoop, hk, hs, h2], ?_⟩
        · simp [keyLoopTrace, hk, hs, h1]
        · simp only [hk, if_false]; exact htail tail h3
      · obtain ⟨r, tail, h1, h2, h3⟩ := ih (incr k) m bk (tried ++ [k]) hfuel2
        refine ⟨r, k :: tail, ?_, by simp [keyLoop, hk, hs, h2], ?_⟩
        · simp [keyLoopTrace, hk, hs, h1]
        · simp only [hk, if_false]; exact htail tail h3

/-- C19: for every buffer and floor the candidate loop of
`findBestScoringKey` terminates (with the fuel 256 of the model and with any
larger fuel) and its body runs for the counter values 1, 2, ..., 255, in this
order, once each and never for 0. -/
theorem findBestScoringKey_tries_each_key_once (buffer : List Byte) (f : Nat) :
    ∃ k m tried, keyLoopTrace buffer 256 1 f 0 [] = some (k, m, tried) ∧
      findBestScoringKey buffer f = some (k, m) ∧
      tried.map Fin.val = List.range' 1 255 ∧
      (∀ fuel, 256 ≤ fuel → keyLoop buffer fuel 1 f 0 = some (k, m)) := by
  obtain ⟨⟨k, m⟩, tail, h1, h2, h3⟩ := keyLoopTrace_spec buffer 256 1 f 0 [] (by decide)
  refine ⟨k, m, tail, by simpa using h1, h2, by simpa using h3, ?_⟩
  intro fuel hfuel
  have := keyLoop_fuel_le buffer 256 (fuel - 256) 1 f 0 (k, m) h2
  rwa [Nat.add_sub_cancel' hfuel] at this

/-- C16: on a buffer of at least 624 bytes `findKeyLength` returns a length in
`[MIN_KEYSIZE, MAX_KEYSIZE)`; it is not 0, so the division `n / keyLength`
of `main` is defined for it. -/
theorem findKeyLength_in_range (buffer : List Byte) (h : 624 ≤ buffer.length) :
    ∃ L, findKeyLength buffer = some L ∧ MIN_KEYSIZE ≤ L ∧ L < MAX_KEYSIZE ∧ L ≠ 0 ∧
      ∀ (decoded : List Byte) (i : Nat),
        column decoded L i = fillBlock decoded L i (decoded.length / L) := by
  obtain ⟨r, hr, hcase⟩ := keyLengthLoop_spec buffer h 38 2 (f32 999999) 0 (by norm_num)
  have hinit : f32 999999 = 999999 := by
    have := f32_natCast 999999 (by norm_num)
    simpa using this
  rcases hcase with ⟨_, hall⟩ | ⟨h1, h2, _⟩
  · exfalso
    have h8 := normED_le_eight (averageDistance buffer 2) 2 (by norm_num) (by norm_num)
      (averageDistance_le buffer 2)
    have := hall 2 (le_refl _) (by norm_num)
    rw [hinit] at this
    linarith
  · have h0 : r ≠ 0 := by omega
    refine ⟨r, hr, h1, by simp only [MAX_KEYSIZE]; omega, h0, ?_⟩
    intro decoded i
    simp [column, h0]

/-- C16, instance: a buffer of 624 zero bytes. -/
theorem findKeyLength_in_range_witness :
    624 ≤ (List.replicate 624 (0 : Byte)).length ∧
    ∃ L, findKeyLength (List.replicate 624 (0 : Byte)) = some L ∧
      MIN_KEYSIZE ≤ L ∧ L < MAX_KEYSIZE ∧ L ≠ 0 := by
  refine ⟨by rw [List.length_replicate], ?_⟩
  obtain ⟨L, h1, h2, h3, h4, _⟩ :=
    findKeyLength_in_range (List.replicate 624 (0 : Byte)) (by rw [List.length_replicate])
  exact ⟨L, h1, h2, h3, h4⟩

/-! ## The buffer positions read by the key-length estimator -/

theorem editLoop_some_bound (buffer : List Byte) (len : Nat) :
    ∀ (n i ed r : Nat), editLoop buffer len n i ed = some r → 0 < n →
      len + i + n ≤ buffer.length := by
  intro n
  induction n with
  | zero => intro i ed r _ h; omega
  | succ n ih =>
    intro i ed r h _
    rw [editLoop] at h
    rcases h2 : buffer[len + i]? with _ | b
    · rw [h2] at h
      cases h1 : buffer[i]? <;> rw [h1] at h <;> simp at h
    · have hb : len + i < buffer.length := by
        rcases Nat.lt_or_ge (len + i) buffer.length with hlt | hge
        · exact hlt
        · rw [List.getElem?_eq_none hge] at h2; cases h2
      rcases Nat.eq_zero_or_pos n with hn | hn
      · omega
      · rcases h1 : buffer[i]? with _ | a
        · rw [h1, h2] at h; simp at h
        · rw [h1, h2] at h
          simp only at h
          rcases h3 : bitLoop 256 (bxor a b).val ed with _ | ed2
          · rw [h3] at h; simp at h
          · rw [h3] at h
            have := ih (i + 1) ed2 r h hn
            omega

theorem editDistance_some_bound (buffer : List Byte) (pos len r : Nat)
    (h : editDistance buffer pos len = some r) (hlen : 0 < len) :
    pos + 2 * len ≤ buffer.length := by
  have := editLoop_some_bound buffer len len pos 0 r h hlen
  omega

theorem trialLoop_some_bound (buffer : List Byte) (len : Nat) (hlen : 0 < len) :
    ∀ (n i sum r : Nat), trialLoop buffer len n i sum = some r →
      ∀ t, i ≤ t → t < i + n → 2 * t * len + 2 * len ≤ buffer.length := by
  intro n
  induction n with
  | zero => intro i sum r _ t h1 h2; omega
  | succ n ih =>
    intro i sum r h t h1 h2
    rw [trialLoop] at h
    rcases h3 : editDistance buffer (2 * i * len) len with _ | ed
    · rw [h3] at h; simp at h
    · rw [h3] at h
      rcases Nat.eq_or_lt_of_le h1 with heq | hlt
      · rw [← heq]; exact editDistance_some_bound buffer _ len ed h3 hlen
      · exact ih (i + 1) _ r h t hlt (by omega)

theorem averageEditDistance_some_bound (buffer : List Byte) (len r : Nat) (hlen : 0 < len)
    (h : averageEditDistance buffer len = some r) : 16 * len ≤ buffer.length := by
  unfold averageEditDistance at h
  rcases h3 : trialLoop buffer len HAMMING_TRIALS 0 0 with _ | s
  · rw [h3] at h; simp at h
  · have := trialLoop_some_bound buffer len hlen 8 0 0 s h3 7 (by omega) (by omega)
    omega

theorem keyLengthLoop_some_bound (buffer : List Byte) :
    ∀ (n L : Nat) (m : ℚ) (g r : Nat), keyLengthLoop buffer n L m g = some r →
      ∀ L2, L ≤ L2 → L2 < L + n → 0 < L2 → 16 * L2 ≤ buffer.length := by
  intro n
  induction n with
  | zero => intro L m g r _ L2 h1 h2; omega
  | succ n ih =>
    intro L m g r h L2 h1 h2 hpos
    rw [keyLengthLoop] at h
    rcases h3 : averageEditDistance buffer L with _ | avg
    · rw [h3] at h; simp at h
    · rw [h3] at h
      simp only at h
      rcases Nat.eq_or_lt_of_le h1 with heq | hlt
      · rw [← heq]
        exact averageEditDistance_some_bound buffer L avg (by omega) h3
      · split at h
        · exact ih (L + 1) _ _ r h L2 hlt (by omega) hpos
        · exact ih (L + 1) _ _ r h L2 hlt (by omega) hpos

theorem findKeyLength_some_bound (buffer : List Byte) (r : Nat)
    (h : findKeyLength buffer = some r) : 624 ≤ buffer.length := by
  have := keyLengthLoop_some_bound buffer 38 2 (f32 999999) 0 r h 39 (by omega) (by omega)
    (by omega)
  omega

theorem findKeyLength_isSome (buffer : List Byte) (h : 624 ≤ buffer.length) :
    ∃ L, findKeyLength buffer = some L := by
  obtain ⟨r, hr, _⟩ := keyLengthLoop_spec buffer h 38 2 (f32 999999) 0 (by norm_num)
  exact ⟨r, hr⟩

theorem mem_findKeyLengthReads (idx : Nat) :
    idx ∈ findKeyLengthReads ↔
      ∃ L t j, 2 ≤ L ∧ L < 40 ∧ t < 8 ∧ j < L ∧
        (idx = 2 * t * L + j ∨ idx = L + (2 * t * L + j)) := by
  simp only [findKeyLengthReads, averageEditDistanceReads, editDistanceReads, List.mem_flatMap,
    List.mem_range, MAX_KEYSIZE, MIN_KEYSIZE, HAMMING_TRIALS, List.mem_cons, List.mem_singleton,
    List.mem_nil_iff, or_false]
  constructor
  · rintro ⟨n, hn, t, ht, j, hj, h⟩
    exact ⟨2 + n, t, j, by omega, by omega, ht, hj, h⟩
  · rintro ⟨L, t, j, h1, h2, ht, hj, h⟩
    refine ⟨L - 2, by omega, t, ht, j, ?_, ?_⟩
    · have : 2 + (L - 2) = L := by omega
      rw [this]; exact hj
    · have : 2 + (L - 2) = L := by omega
      rw [this]; exact h

theorem findKeyLengthReads_le (idx : Nat) (h : idx ∈ findKeyLengthReads) : idx ≤ 623 := by
  obtain ⟨L, t, j, h1, h2, ht, hj, h⟩ := (mem_findKeyLengthReads idx).1 h
  have e1 : t * L ≤ 7 * L := Nat.mul_le_mul_right L (by omega)
  have e2 : 2 * t * L = 2 * (t * L) := Nat.mul_assoc 2 t L
  rcases h with h | h <;> rw [h, e2] <;> omega

theorem findKeyLengthReads_max : 623 ∈ findKeyLengthReads :=
  (mem_findKeyLengthReads 623).2 ⟨39, 7, 38, by decide, by decide, by decide, by decide,
    Or.inr (by decide)⟩

/-- C11: on a buffer of at least 624 bytes every index that `findKeyLength`
reads, for all key lengths 2..39 and trials 0..7, is inside the buffer, and
the call returns; the largest index read is 623. The call has a result
exactly when all the indices read are inside the buffer. -/
theorem findKeyLength_reads_in_bounds (buffer : List Byte) (h : 624 ≤ buffer.length) :
    (∀ idx ∈ findKeyLengthReads, idx < buffer.length) ∧
    (∃ L, findKeyLength buffer = some L) ∧
    (∀ idx ∈ findKeyLengthReads, idx ≤ 623) ∧ 623 ∈ findKeyLengthReads ∧
    (∀ L t j, 2 ≤ L → L < 40 → t < 8 → j < L →
      2 * t * L + j ∈ findKeyLengthReads ∧ L + (2 * t * L + j) ∈ findKeyLengthReads) ∧
    (∀ b : List Byte,
      (∃ L, findKeyLength b = some L) ↔ ∀ idx ∈ findKeyLengthReads, idx < b.length) := by
  refine ⟨fun idx hidx => ?_, findKeyLength_isSome buffer h, findKeyLengthReads_le,
    findKeyLengthReads_max, ?_, ?_⟩
  · have := findKeyLengthReads_le idx hidx
    omega
  · intro L t j h1 h2 ht hj
    exact ⟨(mem_findKeyLengthReads _).2 ⟨L, t, j, h1, h2, ht, hj, Or.inl rfl⟩,
      (mem_findKeyLengthReads _).2 ⟨L, t, j, h1, h2, ht, hj, Or.inr rfl⟩⟩
  · intro b
    constructor
    · rintro ⟨L, hL⟩ idx hidx
      have h1 := findKeyLength_some_bound b L hL
      have h2 := findKeyLengthReads_le idx hidx
      omega
    · intro hall
      have := hall 623 findKeyLengthReads_max
      exact findKeyLength_isSome b (by omega)

/-- C11, instance: a buffer of 624 zero bytes. -/
theorem findKeyLength_reads_in_bounds_witness :
    624 ≤ (List.replicate 624 (0 : Byte)).length ∧
    (∀ idx ∈ findKeyLengthReads, idx < (List.replicate 624 (0 : Byte)).length) ∧
    (∃ L, findKeyLength (List.replicate 624 (0 : Byte)) = some L) :=
  ⟨by simp,
    (findKeyLength_reads_in_bounds (List.replicate 624 (0 : Byte)) (by simp)).1,
    (findKeyLength_reads_in_bounds (List.replicate 624 (0 : Byte)) (by simp)).2.1⟩

/-! ## Cancellation of the key in the block distance -/

theorem repeatingKeyXor_length (p K : List Byte) : (repeatingKeyXor p K).length = p.length := by
  simp [repeatingKeyXor]

theorem repeatingKeyXor_getD (p K : List Byte) (i : Nat) (h : i < p.length) :
    (repeatingKeyXor p K).getD i 0 = bxor (p.getD i 0) (K.getD (i % K.length) 0) := by
  have hl : i < (repeatingKeyXor p K).length := by rw [repeatingKeyXor_length]; exact h
  rw [List.getD_eq_getElem _ _ hl]
  simp [repeatingKeyXor]

theorem bxor_cancel_common (a b x : Byte) : bxor (bxor a x) (bxor b x) = bxor a b := by
  apply Fin.ext
  show (a.val ^^^ x.val) ^^^ (b.val ^^^ x.val) = a.val ^^^ b.val
  rw [Nat.xor_comm b.val x.val, Nat.xor_assoc, ← Nat.xor_assoc x.val x.val b.val,
    Nat.xor_self, Nat.zero_xor]

theorem hammingDistance_repeatingKeyXor (p K : List Byte) (pos len : Nat)
    (hmul : K.length ∣ len) (hb : pos + 2 * len ≤ p.length) :
    hammingDistance (repeatingKeyXor p K) pos len = hammingDistance p pos len := by
  unfold hammingDistance
  congr 1
  apply List.map_congr_left
  intro j hj
  have hj2 : j < len := List.mem_range.1 hj
  obtain ⟨c, hc⟩ := hmul
  have hmod : (pos + len + j) % K.length = (pos + j) % K.length := by
    have e : pos + len + j = pos + j + K.length * c := by rw [hc]; omega
    rw [e, Nat.add_mul_mod_self_left]
  rw [repeatingKeyXor_getD p K (pos + j) (by omega),
    repeatingKeyXor_getD p K (pos + len + j) (by omega), hmod, bxor_cancel_common]

theorem averageDistance_repeatingKeyXor (p K : List Byte) (L : Nat)
    (hmul : K.length ∣ L) (hb : 16 * L ≤ p.length) :
    averageDistance (repeatingKeyXor p K) L = averageDistance p L := by
  unfold averageDistance
  congr 2
  apply List.map_congr_left
  intro t ht
  have ht2 : t < 8 := List.mem_range.1 ht
  apply hammingDistance_repeatingKeyXor p K _ L hmul
  have e1 : 2 * t * L ≤ 2 * 7 * L := Nat.mul_le_mul_right L (by omega)
  omega

/-- C17: for a plaintext `p`, a repeating key `K` and a block length `len` that
is a multiple of `|K|`, with both blocks inside the buffer, `editDistance`
returns on the ciphertext what it returns on the plaintext; so for a
candidate length that is a multiple of `|K|` the average and the normalised
distance of the estimator on the ciphertext are those of the plaintext, the
same for every key of that length. -/
theorem editDistance_key_cancels (p K : List Byte) (pos len : Nat)
    (hmul : K.length ∣ len) (hb : pos + 2 * len ≤ p.length) :
    editDistance (repeatingKeyXor p K) pos len = editDistance p pos len ∧
    (∃ d, editDistance p pos len = some d) ∧
    (16 * len ≤ p.length →
      averageEditDistance (repeatingKeyXor p K) len = averageEditDistance p len ∧
      normalisedDistance (repeatingKeyXor p K) len = normalisedDistance p len ∧
      ∀ K2 : List Byte, K2.length = K.length →
        normalisedDistance (repeatingKeyXor p K) len =
          normalisedDistance (repeatingKeyXor p K2) len) := by
  have hlen := repeatingKeyXor_length p K
  refine ⟨?_, ⟨_, editDistance_eq p pos len hb⟩, fun h16 => ⟨?_, ?_, ?_⟩⟩
  · rw [editDistance_eq _ pos len (by rw [hlen]; exact hb), editDistance_eq p pos len hb,
      hammingDistance_repeatingKeyXor p K pos len hmul hb]
  · rw [averageEditDistance_eq _ len (by rw [hlen]; exact h16),
      averageEditDistance_eq p len h16, averageDistance_repeatingKeyXor p K len hmul h16]
  · unfold normalisedDistance
    rw [averageDistance_repeatingKeyXor p K len hmul h16]
  · intro K2 hK2
    unfold normalisedDistance
    rw [averageDistance_repeatingKeyXor p K len hmul h16,
      averageDistance_repeatingKeyXor p K2 len (by rw [hK2]; exact hmul) h16]

/-- C17, instance: an eight-byte plaintext under the key `ICE`, blocks of
length 3 from position 1. -/
theorem editDistance_key_cancels_witness :
    editDistance (repeatingKeyXor [0x42, 0x75, 0x72, 0x6e, 0x69, 0x6e, 0x67, 0x20]
        [0x49, 0x43, 0x45]) 1 3 =
      editDistance [0x42, 0x75, 0x72, 0x6e, 0x69, 0x6e, 0x67, 0x20] 1 3 :=
  (editDistance_key_cancels [0x42, 0x75, 0x72, 0x6e, 0x69, 0x6e, 0x67, 0x20]
    [0x49, 0x43, 0x45] 1 3 (by decide) (by decide)).1

/-! ## Recovery of the key, column by column -/

theorem keyBytes_spec (decoded : List Byte) (k : Nat) (hk : 0 < k) :
    ∀ c, c ≤ k → ∃ key, keyBytes decoded k c = some key ∧ key.length = c ∧
      ∀ i, i < c → ∃ block m, column decoded k i = some block ∧
        findBestScoringKey block 0 = some (key.getD i 0, m) := by
  intro c
  induction c with
  | zero => intro _; exact ⟨[], rfl, rfl, fun i hi => absurd hi (by omega)⟩
  | succ c ih =>
    intro hc
    obtain ⟨key, hkey, hlen, hall⟩ := ih (by omega)
    have hcol : column decoded k c =
        some ((List.range (decoded.length / k)).map (fun j => decoded.getD (k * j + c) 0)) := by
      have hk0 : k ≠ 0 := Nat.pos_iff_ne_zero.1 hk
      simp only [column, hk0, if_false]
      exact fillBlock_eq decoded k c _
        (fun j hj => column_index_lt decoded.length k c j (by omega) hj)
    obtain ⟨⟨kb, m⟩, hr, _⟩ := findBestScoringKey_spec
      ((List.range (decoded.length / k)).map (fun j => decoded.getD (k * j + c) 0)) 0
    refine ⟨key ++ [kb], by simp only [keyBytes, hkey, hcol, hr], by simp [hlen], ?_⟩
    intro i hi
    rcases Nat.lt_or_ge i c with hlt | hge
    · obtain ⟨block, m2, h1, h2⟩ := hall i hlt
      refine ⟨block, m2, h1, ?_⟩
      rw [List.getD_append _ _ _ _ (by omega)]
      exact h2
    · have hic : i = c := by omega
      subst hic
      refine ⟨_, m, hcol, ?_⟩
      rw [List.getD_append_right _ _ _ _ (by omega), hlen, Nat.sub_self]
      exact hr

/-- C18: for an estimated key length `k` (at least `MIN_KEYSIZE`) the recovered
key has exactly `k` bytes, and byte `i` is what `findBestScoringKey` returns
on column `i` with `maxScore = 0`; two buffers with the same column `i` give
the same key byte `i`, whatever their other columns. -/
theorem recoverKey_columnwise (decoded : List Byte) (k : Nat) (hk : 2 ≤ k) :
    ∃ key, recoverKey decoded k = some key ∧ key.length = k ∧
      (∀ i, i < k → ∃ block m, column decoded k i = some block ∧
        findBestScoringKey block 0 = some (key.getD i 0, m)) ∧
      (∀ (decoded2 key2 : List Byte) (i : Nat), recoverKey decoded2 k = some key2 → i < k →
        column decoded2 k i = column decoded k i → key2.getD i 0 = key.getD i 0) := by
  have hk0 : k ≠ 0 := by omega
  obtain ⟨key, hkey, hlen, hall⟩ := keyBytes_spec decoded k (by omega) k (le_refl _)
  refine ⟨key, by simp only [recoverKey, hk0, if_false, hkey], hlen, hall, ?_⟩
  intro decoded2 key2 i h2 hi hcol
  obtain ⟨key3, hkey3, _, hall3⟩ := keyBytes_spec decoded2 k (by omega) k (le_refl _)
  have e : key3 = key2 := by
    simp only [recoverKey, hk0, if_false, hkey3] at h2
    exact Option.some.inj h2
  subst e
  obtain ⟨b1, m1, c1, f1⟩ := hall i hi
  obtain ⟨b2, m2, c2, f2⟩ := hall3 i hi
  rw [hcol, c1] at c2
  have hb : b1 = b2 := Option.some.inj c2
  subst hb
  rw [f1] at f2
  exact (congrArg Prod.fst (Option.some.inj f2)).symm

/-- C18, instance: a seven-byte buffer and key length 3. -/
theorem recoverKey_columnwise_witness :
    ∃ key, recoverKey [0x10, 0x11, 0x12, 0x13, 0x14, 0x15, 0x16] 3 = some key ∧
      key.length = 3 := by
  obtain ⟨key, h1, h2, _⟩ :=
    recoverKey_columnwise [0x10, 0x11, 0x12, 0x13, 0x14, 0x15, 0x16] 3 (by decide)
  exact ⟨key, h1, h2⟩

theorem findBestScoringKey_nil : findBestScoringKey [] 0 = some (0, 0) := by
  decide

theorem keyBytes_of_short (decoded : List Byte) (k : Nat) (hk : 0 < k)
    (hn : decoded.length < k) :
    ∀ c, keyBytes decoded k c = some (List.replicate c 0) := by
  have hcol : ∀ i, column decoded k i = some [] := by
    intro i
    have hk0 : k ≠ 0 := Nat.pos_iff_ne_zero.1 hk
    simp [column, hk0, Nat.div_eq_of_lt hn, fillBlock]
  intro c
  induction c with
  | zero => rfl
  | succ c ih =>
    simp only [keyBytes, ih, hcol, findBestScoringKey_nil, List.replicate_succ']

/-- C13 as stated fails: with 3 decoded bytes and key length 5 the
orchestration does not fail; the columns are empty and the key produced
consists of 5 zero bytes. -/
theorem recoverKey_no_failure_when_key_longer :
    recoverKey [0x41, 0x42, 0x43] 5 = some [0, 0, 0, 0, 0] ∧
    column [0x41, 0x42, 0x43] 5 0 = some [] := by
  refine ⟨?_, by decide⟩
  have h := keyBytes_of_short [0x41, 0x42, 0x43] 5 (by decide) (by decide) 5
  simp only [recoverKey]
  exact h

/-- C13, amended: for a key length `k > 0` that is not smaller than the number
`n` of decoded bytes the orchestration does not fail: it deinterleaves with
`blockSize = n / k`, which is 0 or 1, and produces a key of `k` bytes, which for `k > n` are
all zero, every column being empty. For `k = 0` the division `n / k` has no
result. -/
theorem recoverKey_degenerate_lengths (decoded : List Byte) (k : Nat)
    (hk : 0 < k) (hkn : decoded.length ≤ k) :
    decoded.length / k ≤ 1 ∧
    (∃ key, recoverKey decoded k = some key ∧ key.length = k) ∧
    (decoded.length < k →
      recoverKey decoded k = some (List.replicate k 0) ∧
      ∀ i, column decoded k i = some []) ∧
    recoverKey decoded 0 = none := by
  have hk0 : k ≠ 0 := Nat.pos_iff_ne_zero.1 hk
  refine ⟨?_, ?_, fun hlt => ⟨?_, fun i => ?_⟩, by simp [recoverKey]⟩
  · exact Nat.div_le_of_le_mul (by omega)
  · obtain ⟨key, hkey, hlen, _⟩ := keyBytes_spec decoded k hk k (le_refl _)
    exact ⟨key, by simp only [recoverKey, hk0, if_false, hkey], hlen⟩
  · simp only [recoverKey, hk0, if_false]
    exact keyBytes_of_short decoded k hk hlt k
  · simp [column, hk0, Nat.div_eq_of_lt hlt, fillBlock]

/-- C13, amended, instance: three decoded bytes and key length 5. -/
theorem recoverKey_degenerate_lengths_witness :
    ∃ key, recoverKey [0x41, 0x42, 0x43] 5 = some key ∧ key.length = 5 :=
  (recoverKey_degenerate_lengths [0x41, 0x42, 0x43] 5 (by decide) (by decide)).2.1

/-! ## The estimator on the array of `main` -/

theorem findKeyLength_first_min (buffer : List Byte) (h : 624 ≤ buffer.length) :
    ∃ L, findKeyLength buffer = some L ∧ 2 ≤ L ∧ L < 40 ∧
      (∀ L2, 2 ≤ L2 → L2 < L →
        normalisedDistance buffer L < normalisedDistance buffer L2) ∧
      (∀ L2, L < L2 → L2 < 40 →
        normalisedDistance buffer L ≤ normalisedDistance buffer L2) := by
  obtain ⟨r, hr, hcase⟩ := keyLengthLoop_spec buffer h 38 2 (f32 999999) 0 (by norm_num)
  have hinit : f32 999999 = 999999 := by
    have := f32_natCast 999999 (by norm_num)
    simpa using this
  have hiff : ∀ L L2, 2 ≤ L → L < 40 → 2 ≤ L2 → L2 < 40 →
      (normED (averageDistance buffer L) L < normED (averageDistance buffer L2) L2 ↔
        normalisedDistance buffer L < normalisedDistance buffer L2) := fun L L2 a b c d =>
    normED_lt_iff _ L _ L2 (by omega) b (by omega) d (averageDistance_le buffer L)
      (averageDistance_le buffer L2)
  rcases hcase with ⟨_, hall⟩ | ⟨h1, h2, _, h4, h5⟩
  · exfalso
    have h8 := normED_le_eight (averageDistance buffer 2) 2 (by norm_num) (by norm_num)
      (averageDistance_le buffer 2)
    have := hall 2 (le_refl _) (by norm_num)
    rw [hinit] at this
    linarith
  · refine ⟨r, hr, h1, by omega, ?_, ?_⟩
    · intro L2 a b
      exact (hiff r L2 h1 (by omega) a (by omega)).1 (h4 L2 a b)
    · intro L2 a b
      have := h5 L2 (le_of_lt a) (by omega)
      by_contra hn
      exact absurd ((hiff L2 r (by omega) b h1 (by omega)).2 (not_le.1 hn)) (not_lt.2 this)

theorem hammingDistance_congr (b1 b2 : List Byte) (pos len bound : Nat)
    (hb : pos + 2 * len ≤ bound) (h : b1.take bound = b2.take bound) :
    hammingDistance b1 pos len = hammingDistance b2 pos len := by
  have hg : ∀ i, i < bound → b1.getD i 0 = b2.getD i 0 := by
    intro i hi
    rw [List.getD_eq_getElem?_getD, List.getD_eq_getElem?_getD,
      ← List.getElem?_take_of_lt hi, ← List.getElem?_take_of_lt (l := b2) hi, h]
  unfold hammingDistance
  congr 1
  apply List.map_congr_left
  intro j hj
  have hj2 : j < len := List.mem_range.1 hj
  rw [hg (pos + j) (by omega), hg (pos + len + j) (by omega)]

theorem normalisedDistance_congr (b1 b2 : List Byte) (L : Nat) (hL : L < 40)
    (h : b1.take 624 = b2.take 624) :
    normalisedDistance b1 L = normalisedDistance b2 L := by
  unfold normalisedDistance averageDistance
  congr 4
  apply List.map_congr_left
  intro t ht
  have ht2 : t < 8 := List.mem_range.1 ht
  apply hammingDistance_congr b1 b2 _ L 624 _ h
  have e1 : 2 * t * L ≤ 2 * 7 * L := Nat.mul_le_mul_right L (by omega)
  omega

theorem findKeyLength_congr (b1 b2 : List Byte) (h1 : 624 ≤ b1.length) (h2 : 624 ≤ b2.length)
    (h : b1.take 624 = b2.take 624) : findKeyLength b1 = findKeyLength b2 := by
  obtain ⟨L1, e1, a1, c1, d1, f1⟩ := findKeyLength_first_min b1 h1
  obtain ⟨L2, e2, a2, c2, d2, f2⟩ := findKeyLength_first_min b2 h2
  have hN : ∀ L, L < 40 → normalisedDistance b1 L = normalisedDistance b2 L :=
    fun L hL => normalisedDistance_congr b1 b2 L hL h
  rw [e1, e2]
  congr 1
  rcases Nat.lt_trichotomy L1 L2 with hlt | heq | hgt
  · exfalso
    have x := d2 L1 a1 hlt
    have y := f1 L2 hlt c2
    rw [hN L1 c1, hN L2 c2] at y
    exact absurd x (not_lt.2 y)
  · exact heq
  · exfalso
    have x := d1 L2 a2 hgt
    have y := f2 L1 hgt c1
    rw [← hN L1 c1, ← hN L2 c2] at y
    exact absurd x (not_lt.2 y)

theorem hammingDistance_zeros (n pos len : Nat) :
    hammingDistance (List.replicate n (0 : Byte)) pos len = 0 := by
  unfold hammingDistance
  have h0 : ∀ i, (List.replicate n (0 : Byte)).getD i 0 = 0 := fun i => by
    rw [List.getD_eq_getElem?_getD, List.getElem?_replicate]
    split <;> rfl
  have hp : popcount (bxor 0 0) = 0 := by decide
  simp only [h0, hp]
  simp

theorem findKeyLength_zeros (n : Nat) (h : 624 ≤ n) :
    findKeyLength (List.replicate n (0 : Byte)) = some 2 := by
  obtain ⟨L, e, a, c, d, _⟩ := findKeyLength_first_min (List.replicate n (0 : Byte))
    (by rw [List.length_replicate]; exact h)
  have hN : ∀ L2, normalisedDistance (List.replicate n (0 : Byte)) L2 = 0 := by
    intro L2
    simp [normalisedDistance, averageDistance, hammingDistance_zeros]
  rcases Nat.eq_or_lt_of_le a with heq | hlt
  · rw [e, ← heq]
  · exfalso
    have := d 2 (le_refl _) hlt
    rw [hN, hN] at this
    exact lt_irrefl _ this

theorem main6_of_no_input (decoded : List Byte)
    (h : findKeyLength decoded = some 2) : main6 decoded 0 = some [0, 0] := by
  have e : recoverKey [] 2 = some [0, 0] := by decide
  simp only [main6, h, List.take_zero]
  exact e

/-- C12 as stated fails: with no decoded byte at all (`n = 0`) and the array
`decoded` holding zeros, `findKeyLength` returns the estimate 2, having read
position 623 among others, and `main` goes on to produce a key. -/
theorem findKeyLength_no_insufficient_data :
    findKeyLength (List.replicate 65536 (0 : Byte)) = some 2 ∧
    623 ∈ findKeyLengthReads ∧
    main6 (List.replicate 65536 (0 : Byte)) 0 = some [0, 0] := by
  have h2 := findKeyLength_zeros 65536 (by norm_num)
  exact ⟨h2, findKeyLengthReads_max, main6_of_no_input _ h2⟩

/-- C12, amended: `findKeyLength` receives only the array and makes no check
against the number `n` of decoded bytes: for every content of an array of at
least 624 bytes it returns an estimate in `[2, 40)`, which is determined by
the array bytes at positions 0..623; when `n < 624` some of the positions it
reads lie at or past `n`. -/
theorem findKeyLength_ignores_decoded_length (decoded : List Byte) (n : Nat)
    (h : 624 ≤ decoded.length) :
    (∃ L, findKeyLength decoded = some L ∧ 2 ≤ L ∧ L < 40) ∧
    (∀ decoded2 : List Byte, 624 ≤ decoded2.length → decoded2.take 624 = decoded.take 624 →
      findKeyLength decoded2 = findKeyLength decoded) ∧
    (n < 624 → ∃ idx ∈ findKeyLengthReads, n ≤ idx ∧ idx < decoded.length) := by
  refine ⟨?_, fun d2 h2 ht => findKeyLength_congr d2 decoded h2 h ht, fun hn => ?_⟩
  · obtain ⟨L, e, a, c, _⟩ := findKeyLength_first_min decoded h
    exact ⟨L, e, a, c⟩
  · exact ⟨623, findKeyLengthReads_max, by omega, by omega⟩

/-- C12, amended, instance: an array of 65536 zero bytes, none of them decoded
input. -/
theorem findKeyLength_ignores_decoded_length_witness :
    624 ≤ (List.replicate 65536 (0 : Byte)).length ∧
    ∃ L, findKeyLength (List.replicate 65536 (0 : Byte)) = some L ∧ 2 ≤ L ∧ L < 40 :=
  ⟨by rw [List.length_replicate]; norm_num,
    (findKeyLength_ignores_decoded_length (List.replicate 65536 (0 : Byte)) 0
      (by rw [List.length_replicate]; norm_num)).1⟩

/-! ## A floor shared across buffers -/

theorem scoreLoop_le_bestScore (buffer : List Byte) (k : Byte) (hk : k ≠ 0) :
    scoreLoop buffer k ≤ bestScore buffer :=
  Finset.le_sup (f := scoreLoop buffer) (Finset.mem_filter.2 ⟨Finset.mem_univ k, hk⟩)

theorem bestScore_le_iff (buffer : List Byte) (m : Nat) :
    bestScore buffer ≤ m ↔ ∀ k : Byte, k ≠ 0 → scoreLoop buffer k ≤ m := by
  unfold bestScore
  rw [Finset.sup_le_iff]
  constructor
  · intro h k hk
    exact h k (Finset.mem_filter.2 ⟨Finset.mem_univ k, hk⟩)
  · intro h k hk
    exact h k (Finset.mem_filter.1 hk).2

theorem findBestScoringKey_max (buffer : List Byte) (f : Nat) :
    ∃ k m, findBestScoringKey buffer f = some (k, m) ∧ m = max f (bestScore buffer) ∧
      (k ≠ 0 ↔ f < bestScore buffer) := by
  obtain ⟨⟨k, m⟩, hr, hall, hcase⟩ := findBestScoringKey_spec buffer f
  refine ⟨k, m, hr, ?_⟩
  rcases hcase with ⟨hreq, hle⟩ | ⟨hp, hsc, hlt, _⟩
  · have hk : k = 0 := congrArg Prod.fst hreq
    have hm : m = f := congrArg Prod.snd hreq
    have hb : bestScore buffer ≤ f :=
      (bestScore_le_iff buffer f).2 (fun j hj => hle j ((pending_one j).2 hj))
    refine ⟨by rw [hm, max_eq_left hb], ?_⟩
    constructor
    · intro h; exact absurd hk h
    · intro h; omega
  · simp only at hp hsc hlt hall
    have hk : k ≠ 0 := (pending_one k).1 hp
    have h1 : bestScore buffer ≤ m :=
      (bestScore_le_iff buffer m).2 (fun j hj => hall j ((pending_one j).2 hj))
    have h2 : m ≤ bestScore buffer := by
      rw [← hsc]; exact scoreLoop_le_bestScore buffer k hk
    have hm : m = bestScore buffer := le_antisymm h2 h1
    refine ⟨by rw [hm, max_eq_right (by omega)], ?_⟩
    constructor
    · intro _; omega
    · intro _; exact hk

theorem runningMax_cons (f : Nat) (b : List Byte) (bs : List (List Byte)) :
    runningMax f (b :: bs) = runningMax (max f (bestScore b)) bs := rfl

theorem le_runningMax (f : Nat) (bs : List (List Byte)) : f ≤ runningMax f bs := by
  induction bs generalizing f with
  | nil => exact le_refl _
  | cons b bs ih =>
    rw [runningMax_cons]
    exact le_trans (le_max_left _ _) (ih _)

theorem runningMax_append (f : Nat) (bs cs : List (List Byte)) :
    runningMax f (bs ++ cs) = runningMax (runningMax f bs) cs := by
  simp [runningMax, List.foldl_append]

theorem main4Loop_spec :
    ∀ (buffers : List (List Byte)) (f : Nat),
      ∃ keys final, main4Loop buffers f = some (keys, final) ∧
        keys.length = buffers.length ∧ final = runningMax f buffers ∧
        ∀ i, i < buffers.length →
          (keys.getD i 0 ≠ 0 ↔
            runningMax f (buffers.take i) < bestScore (buffers.getD i [])) := by
  intro buffers
  induction buffers with
  | nil =>
    intro f
    exact ⟨[], f, rfl, rfl, rfl, fun i hi => absurd hi (by simp)⟩
  | cons b bs ih =>
    intro f
    obtain ⟨k, m, hr, hm, hk⟩ := findBestScoringKey_max b f
    obtain ⟨keys, final, hrest, hlen, hfinal, hkeys⟩ := ih m
    refine ⟨k :: keys, final, by simp only [main4Loop, hr, hrest], by simp [hlen], ?_, ?_⟩
    · rw [hfinal, hm, runningMax_cons]
    · intro i hi
      cases i with
      | zero => simpa [runningMax] using hk
      | succ i =>
        have := hkeys i (by simpa using hi)
        rw [hm] at this
        simpa [runningMax_cons] using this

theorem runningMax_take_lt_iff (x : Nat) :
    ∀ (buffers : List (List Byte)) (f i : Nat),
      (runningMax f (buffers.take i) < x ↔
        f < x ∧ ∀ j, j < i → j < buffers.length → bestScore (buffers.getD j []) < x) := by
  intro buffers
  induction buffers with
  | nil =>
    intro f i
    simp [runningMax]
  | cons b bs ih =>
    intro f i
    cases i with
    | zero => simp [runningMax]
    | succ i =>
      rw [List.take_succ_cons, runningMax_cons, ih, max_lt_iff]
      constructor
      · rintro ⟨⟨h1, h2⟩, h3⟩
        refine ⟨h1, fun j hj hjl => ?_⟩
        cases j with
        | zero => simpa using h2
        | succ j => simpa using h3 j (by omega) (by simpa using hjl)
      · rintro ⟨h1, h2⟩
        refine ⟨⟨h1, by simpa using h2 0 (by omega) (by simp)⟩, fun j hj hjl => ?_⟩
        simpa using h2 (j + 1) (by omega) (by simpa using hjl)

theorem bestScore_le_runningMax (f : Nat) (bs : List (List Byte)) (b : List Byte)
    (hb : b ∈ bs) : bestScore b ≤ runningMax f bs := by
  induction bs generalizing f with
  | nil => cases hb
  | cons c cs ih =>
    rw [runningMax_cons]
    rcases List.mem_cons.1 hb with rfl | hmem
    · exact le_trans (le_max_right _ _) (le_runningMax _ _)
    · exact ih _ hmem

theorem runningMax_attained (f : Nat) (bs : List (List Byte)) :
    runningMax f bs = f ∨ ∃ b ∈ bs, runningMax f bs = bestScore b := by
  induction bs generalizing f with
  | nil => exact Or.inl rfl
  | cons c cs ih =>
    rw [runningMax_cons]
    rcases ih (max f (bestScore c)) with h | ⟨b, hb, h⟩
    · rcases le_total f (bestScore c) with hle | hle
      · right
        exact ⟨c, List.mem_cons_self _ _, by rw [h, max_eq_right hle]⟩
      · left
        rw [h, max_eq_left hle]
    · exact Or.inr ⟨b, List.mem_cons_of_mem _ hb, h⟩

theorem bestScore_attained (b : List Byte) :
    ∃ k : Byte, k ≠ 0 ∧ scoreLoop b k = bestScore b := by
  have hne : (Finset.univ.filter (fun k : Byte => k ≠ 0)).Nonempty :=
    ⟨1, Finset.mem_filter.2 ⟨Finset.mem_univ _, by decide⟩⟩
  obtain ⟨k, hk, h⟩ := Finset.exists_mem_eq_sup _ hne (scoreLoop b)
  exact ⟨k, (Finset.mem_filter.1 hk).2, h.symm⟩

theorem runningMax_take_mono (buffers : List (List Byte)) (i j : Nat) (h : i ≤ j) :
    runningMax 0 (buffers.take i) ≤ runningMax 0 (buffers.take j) := by
  have e : buffers.take j = buffers.take i ++ (buffers.take j).drop i := by
    have := List.take_append_drop i (buffers.take j)
    rw [List.take_take, min_eq_left h] at this
    exact this.symm
  rw [e, runningMax_append]
  exact le_runningMax _ _

/-- C20 as stated fails: for the single empty buffer the call returns key 0,
although there is no earlier buffer whose best score it would have to beat. -/
theorem main4_first_buffer_needs_positive_score :
    main4 [[]] = some ([0], 0) ∧
    ¬ (((0 : Byte) ≠ 0) ↔
      ∀ j, j < 0 → bestScore (([[]] : List (List Byte)).getD j []) <
        bestScore (([[]] : List (List Byte)).getD 0 [])) := by
  refine ⟨by decide, ?_⟩
  intro h
  exact (h.2 (fun j hj => absurd hj (Nat.not_lt_zero j))) rfl

/-- C20, amended: over a list of buffers processed in order with one
`maxScore` starting at 0, `maxScore` never decreases, its value after the
first `i` calls is the largest best score among the first `i` buffers (0 if
none is above 0), and so is its final value over all buffers; call `i`
returns a non-zero key exactly when the best score of its buffer is above 0
and above the best score of every earlier buffer. -/
theorem main4_shared_floor (buffers : List (List Byte)) :
    ∃ keys final, main4 buffers = some (keys, final) ∧ keys.length = buffers.length ∧
      final = runningMax 0 buffers ∧
      (∀ b ∈ buffers, ∀ k : Byte, k ≠ 0 → scoreLoop b k ≤ final) ∧
      (final = 0 ∨ ∃ b ∈ buffers, ∃ k : Byte, k ≠ 0 ∧ scoreLoop b k = final) ∧
      (∀ i, i ≤ buffers.length → ∃ keys2,
        main4 (buffers.take i) = some (keys2, runningMax 0 (buffers.take i))) ∧
      (∀ i j, i ≤ j →
        runningMax 0 (buffers.take i) ≤ runningMax 0 (buffers.take j)) ∧
      (∀ i, i < buffers.length →
        (keys.getD i 0 ≠ 0 ↔
          0 < bestScore (buffers.getD i []) ∧
          ∀ j, j < i → bestScore (buffers.getD j []) < bestScore (buffers.getD i []))) := by
  obtain ⟨keys, final, hrun, hlen, hfinal, hkeys⟩ := main4Loop_spec buffers 0
  refine ⟨keys, final, hrun, hlen, hfinal, ?_, ?_, ?_, runningMax_take_mono buffers, ?_⟩
  · intro b hb k hk
    rw [hfinal]
    exact le_trans (scoreLoop_le_bestScore b k hk) (bestScore_le_runningMax 0 buffers b hb)
  · rcases runningMax_attained 0 buffers with h | ⟨b, hb, h⟩
    · left; rw [hfinal, h]
    · right
      obtain ⟨k, hk, hs⟩ := bestScore_attained b
      exact ⟨b, hb, k, hk, by rw [hfinal, h, hs]⟩
  · intro i _
    obtain ⟨keys2, final2, hrun2, _, hfinal2, _⟩ := main4Loop_spec (buffers.take i) 0
    exact ⟨keys2, by rw [← hfinal2]; exact hrun2⟩
  · intro i hi
    rw [hkeys i hi, runningMax_take_lt_iff]
    constructor
    · rintro ⟨h1, h2⟩
      exact ⟨h1, fun j hj => h2 j hj (by omega)⟩
    · rintro ⟨h1, h2⟩
      exact ⟨h1, fun j hj _ => h2 j hj⟩

/-- C20, amended, instance: the ciphertext of challenge 3 followed by an empty
buffer. -/
theorem main4_shared_floor_witness :
    ∃ keys final, main4 [[0x1b, 0x37, 0x37, 0x33], []] = some (keys, final) ∧
      keys.length = 2 ∧ final = runningMax 0 [[0x1b, 0x37, 0x37, 0x33], []] := by
  obtain ⟨keys, final, h1, h2, h3, _⟩ := main4_shared_floor [[0x1b, 0x37, 0x37, 0x33], []]
  exact ⟨keys, final, h1, h2, h3⟩

end Cryptopals
